import Mathlib

/-!
# gofile-system: the in-memory file table of `main.go`

A shallow embedding of `src/main.go`.

* `File` is the Go struct of the same name.
* `FileSystem` is the Go struct of the same name together with the part of the
  Go object store it points into: `files` is the `map[string]*File`, a pointer
  is an address, `heap` gives the `File` object stored at an address and `next`
  is the first address that has not been allocated yet. A Go map has at most
  one entry per key, which is what a function `String → Option Nat` is.
* every method returns an `Outcome`: the file system after the call, the
  returned `error` (`none` for `nil`) and what the call printed.
* `filepathJoin` is `path/filepath.Join` of the Go standard library (Unix) on
  two elements, with `Clean` written out.
* Go's `int` is taken at 64 bits (`wrapInt`), as on amd64 and arm64.
* `Allocated` says that the pointers in the map refer to objects that exist,
  which Go guarantees of every pointer; `Exclusive` says that no object is
  shared between two keys. Both hold of `NewFileSystem` and are kept by every
  method (`Owned_apply`, `Owned_run`).

Go strings are byte strings; the embedding uses `String`, which covers every
valid UTF-8 string. The bytes of `/` and `.` never occur inside a multi-byte
UTF-8 sequence, so working on characters instead of bytes changes nothing for
such strings.
-/

namespace GoFileSystem

/-! ## path/filepath -/

/-- The path separator `filepath.Separator` on Unix. -/
def Separator : Char := '/'

/-- The path elements of a path: the maximal runs of bytes between separators
(`Clean` reads the path one such run at a time). -/
def splitElems : List Char → List (List Char)
  | [] => [[]]
  | c :: cs =>
    if c = Separator then [] :: splitElems cs
    else
      match splitElems cs with
      | [] => [[c]]
      | e :: es => (c :: e) :: es

/-- The inner loop of the `..` case of `Clean`:
`for out.w > dotdot && !os.IsPathSeparator(out.index(out.w)) { out.w-- }`,
returning the final `out.w`. -/
def backtrack (buf : List Char) (dotdot : Nat) : Nat → Nat
  | 0 => 0
  | w + 1 =>
    if w + 1 > dotdot ∧ buf.getD (w + 1) Separator ≠ Separator then backtrack buf dotdot w
    else w + 1

/-- One turn of the main loop of `Clean` on the path element `e`; the state is
the written part of the output buffer (`out`, of length `out.w`) and `dotdot`. -/
def cleanStep (rooted : Bool) (st : List Char × Nat) (e : List Char) : List Char × Nat :=
  if e = [] then st
  else if e = ['.'] then st
  else if e = ['.', '.'] then
    if st.1.length > st.2 then
      (st.1.take (backtrack st.1 st.2 (st.1.length - 1)), st.2)
    else if rooted = false then
      let buf1 := if st.1.length > 0 then st.1 ++ [Separator] else st.1
      let buf2 := buf1 ++ ['.', '.']
      (buf2, buf2.length)
    else st
  else
    let buf1 :=
      if (rooted = true ∧ st.1.length ≠ 1) ∨ (rooted = false ∧ st.1.length ≠ 0) then
        st.1 ++ [Separator]
      else st.1
    (buf1 ++ e, st.2)

/-- Go's `filepath.Clean` on a list of bytes (Unix: no volume name). -/
def cleanChars (path : List Char) : List Char :=
  match path with
  | [] => ['.']
  | c :: cs =>
    let rooted : Bool := decide (c = Separator)
    let start : List Char × Nat := if rooted then ([Separator], 1) else ([], 0)
    let rest : List Char := if rooted then cs else c :: cs
    let out := (splitElems rest).foldl (cleanStep rooted) start
    if out.1.length = 0 then ['.'] else out.1

/-- Go's `filepath.Clean`. -/
def Clean (path : String) : String := String.mk (cleanChars path.data)

/-- Go's `filepath.Join(a, b)`: the first non-empty element onwards is joined
with the separator and cleaned; with no non-empty element the result is `""`. -/
def filepathJoin (a b : String) : String :=
  if a ≠ "" then Clean (a ++ "/" ++ b)
  else if b ≠ "" then Clean b
  else ""

/-! ## Go's int -/

/-- The value of a Go `int` (64 bits, two's complement) after an arithmetic
result `i`: overflow wraps around. -/
def wrapInt (i : Int) : Int := (i + 2 ^ 63) % 2 ^ 64 - 2 ^ 63

/-- The largest Go `int`. -/
def maxInt : Int := 2 ^ 63 - 1

/-- The smallest Go `int`. -/
def minInt : Int := -(2 ^ 63)

/-! ## The data model -/

/-- The Go struct `File`. -/
structure File where
  Name : String
  Path : String
  Contents : String
  Version : Int
  deriving DecidableEq

/-- The Go struct `FileSystem` (`files`) with the `File` objects its pointers
refer to (`heap`, `next`). -/
structure FileSystem where
  files : String → Option Nat
  heap : Nat → File
  next : Nat

/-- The errors the methods build with `fmt.Errorf`. -/
inductive Error where
  /-- The error "file %s already exists". -/
  | alreadyExists (name : String)
  /-- The error "file %s does not exist". -/
  | doesNotExist (name : String)
  /-- The error "file %s already exists in destination path". -/
  | existsInDestination (name : String)
  /-- The error "invalid version number". -/
  | invalidVersion
  deriving DecidableEq

/-- The three kinds of error of the specification. -/
inductive ErrorKind where
  | AlreadyExists
  | NotFound
  | InvalidVersion
  deriving DecidableEq

/-- The kind of an error. -/
def Error.kind : Error → ErrorKind
  | .alreadyExists _ => .AlreadyExists
  | .doesNotExist _ => .NotFound
  | .existsInDestination _ => .AlreadyExists
  | .invalidVersion => .InvalidVersion

/-- The text of an error, as `fmt.Errorf` formats it. -/
def Error.message : Error → String
  | .alreadyExists name => "file " ++ name ++ " already exists"
  | .doesNotExist name => "file " ++ name ++ " does not exist"
  | .existsInDestination name => "file " ++ name ++ " already exists in destination path"
  | .invalidVersion => "invalid version number"

/-- What a method call leaves behind: the file system, the returned error and
the text written to standard output. -/
structure Outcome where
  fs : FileSystem
  err : Option Error
  out : String

/-- The map assignment `m[k] = p`. -/
def mapSet (m : String → Option Nat) (k : String) (p : Nat) : String → Option Nat :=
  fun k' => if k' = k then some p else m k'

/-- The map deletion `delete(m, k)`. -/
def mapDelete (m : String → Option Nat) (k : String) : String → Option Nat :=
  fun k' => if k' = k then none else m k'

/-- Writing the object `f` at address `p`. -/
def store (h : Nat → File) (p : Nat) (f : File) : Nat → File :=
  fun q => if q = p then f else h q

/-- The record a key leads to: `*fs.files[key]`, when the key is present. -/
def FileSystem.record (fs : FileSystem) (key : String) : Option File :=
  (fs.files key).map fs.heap

/-- Go's `NewFileSystem`: an empty map (and no `File` object yet). -/
def NewFileSystem : FileSystem :=
  { files := fun _ => none, heap := fun _ => ⟨"", "", "", 0⟩, next := 0 }

/-- Go's `(*FileSystem).CreateFile`. -/
def FileSystem.CreateFile (fs : FileSystem) (name path contents : String) : Outcome :=
  match fs.files (filepathJoin path name) with
  | some _ => { fs := fs, err := some (.alreadyExists name), out := "" }
  | none =>
    { fs :=
        { files := mapSet fs.files (filepathJoin path name) fs.next
          heap := store fs.heap fs.next
            { Name := name, Path := path, Contents := contents, Version := 1 }
          next := fs.next + 1 }
      err := none
      out := "" }

/-- Go's `(*FileSystem).DeleteFile`. -/
def FileSystem.DeleteFile (fs : FileSystem) (name path : String) : Outcome :=
  let key := filepathJoin path name
  match fs.files key with
  | none => { fs := fs, err := some (.doesNotExist name), out := "" }
  | some _ =>
    { fs := { fs with files := mapDelete fs.files key }, err := none, out := "" }

/-- Go's `(*FileSystem).Copy`: `copiedFile := *file` is a new `File` object. -/
def FileSystem.Copy (fs : FileSystem) (name srcPath destPath : String) : Outcome :=
  let srcKey := filepathJoin srcPath name
  match fs.files srcKey with
  | none => { fs := fs, err := some (.doesNotExist name), out := "" }
  | some file =>
    let destKey := filepathJoin destPath name
    match fs.files destKey with
    | some _ => { fs := fs, err := some (.existsInDestination name), out := "" }
    | none =>
      let copiedFile : File := { fs.heap file with Path := destPath }
      { fs :=
          { files := mapSet fs.files destKey fs.next
            heap := store fs.heap fs.next copiedFile
            next := fs.next + 1 }
        err := none
        out := "" }

/-- Go's `(*FileSystem).MoveFile`: the object itself is updated and re-keyed. -/
def FileSystem.MoveFile (fs : FileSystem) (name srcPath destPath : String) : Outcome :=
  let srcKey := filepathJoin srcPath name
  match fs.files srcKey with
  | none => { fs := fs, err := some (.doesNotExist name), out := "" }
  | some file =>
    let destKey := filepathJoin destPath name
    match fs.files destKey with
    | some _ => { fs := fs, err := some (.existsInDestination name), out := "" }
    | none =>
      { fs :=
          { files := mapSet (mapDelete fs.files srcKey) destKey file
            heap := store fs.heap file { fs.heap file with Path := destPath }
            next := fs.next }
        err := none
        out := "" }

/-- Go's `(*FileSystem).SaveVersion`. -/
def FileSystem.SaveVersion (fs : FileSystem) (name path contents : String) : Outcome :=
  let key := filepathJoin path name
  match fs.files key with
  | none => { fs := fs, err := some (.doesNotExist name), out := "" }
  | some file =>
    { fs :=
        { fs with
          heap := store fs.heap file
            { fs.heap file with
              Version := wrapInt ((fs.heap file).Version + 1), Contents := contents } }
      err := none
      out := "" }

/-- The text `fmt.Printf` writes in `SwitchVersion`. -/
def switchReport (name : String) (version : Int) (contents : String) : String :=
  "Old version of " ++ name ++ " (Version " ++ toString version ++ "):\n" ++ contents ++ "\n"

/-- Go's `(*FileSystem).SwitchVersion`. -/
def FileSystem.SwitchVersion (fs : FileSystem) (name path : String) (version : Int) : Outcome :=
  let key := filepathJoin path name
  match fs.files key with
  | none => { fs := fs, err := some (.doesNotExist name), out := "" }
  | some file =>
    if version ≤ 0 ∨ version > (fs.heap file).Version then
      { fs := fs, err := some .invalidVersion, out := "" }
    else
      { fs := fs, err := none, out := switchReport name version (fs.heap file).Contents }

/-! ## Sequences of calls -/

/-- A call of one of the six methods. -/
inductive Op where
  | create (name path contents : String)
  | delete (name path : String)
  | copy (name srcPath destPath : String)
  | move (name srcPath destPath : String)
  | save (name path contents : String)
  | switch (name path : String) (version : Int)
  deriving DecidableEq

/-- Performing one call. -/
def FileSystem.apply (fs : FileSystem) : Op → Outcome
  | .create name path contents => fs.CreateFile name path contents
  | .delete name path => fs.DeleteFile name path
  | .copy name srcPath destPath => fs.Copy name srcPath destPath
  | .move name srcPath destPath => fs.MoveFile name srcPath destPath
  | .save name path contents => fs.SaveVersion name path contents
  | .switch name path version => fs.SwitchVersion name path version

/-- Performing a sequence of calls one after the other, whatever each returns. -/
def FileSystem.run (fs : FileSystem) : List Op → FileSystem
  | [] => fs
  | op :: ops => ((fs.apply op).fs).run ops

/-! ## Vocabulary of the statements -/

/-- The call returned `nil`. -/
def Outcome.succeeds (o : Outcome) : Prop := o.err = none

/-- The call returned an error of kind `k`. -/
def Outcome.failsWith (o : Outcome) (k : ErrorKind) : Prop := o.err.map Error.kind = some k

instance (o : Outcome) : Decidable o.succeeds := by
  unfold Outcome.succeeds; exact inferInstance

instance (o : Outcome) (k : ErrorKind) : Decidable (o.failsWith k) := by
  unfold Outcome.failsWith; exact inferInstance

/-- The key is present in the map. -/
def FileSystem.present (fs : FileSystem) (key : String) : Prop := fs.files key ≠ none

instance (fs : FileSystem) (key : String) : Decidable (fs.present key) := by
  unfold FileSystem.present; exact inferInstance

/-- Every pointer held by the map refers to an object that has been allocated
(so that an object allocated later is a different one). -/
def FileSystem.Allocated (fs : FileSystem) : Prop :=
  ∀ k p, fs.files k = some p → p < fs.next

/-- A table with one file, as `CreateFile("a.txt", "/d", "v1")` leaves it. -/
def oneFile : FileSystem := (NewFileSystem.CreateFile "a.txt" "/d" "v1").fs

/-- A table with a file under `/d` and a file of the same name under `/b`. -/
def twoFiles : FileSystem := (oneFile.CreateFile "a.txt" "/b" "w1").fs

/-- A table whose only file has reached the largest version a Go `int` holds. -/
def fullVersion : FileSystem :=
  { files := mapSet (fun _ => none) "/d/a.txt" 0
    heap := fun _ => { Name := "a.txt", Path := "/d", Contents := "v1", Version := maxInt }
    next := 1 }

/-- The last path element of a path, as `Clean` reads elements. -/
def lastElem (path : List Char) : Option (List Char) := (splitElems path).getLast?

/-- A plain file name: not empty, without a separator, and neither `.` nor
`..`. -/
def plainName (name : String) : Prop :=
  name.data ≠ [] ∧ Separator ∉ name.data ∧ name.data ≠ ['.'] ∧ name.data ≠ ['.', '.']

instance (name : String) : Decidable (plainName name) := by
  unfold plainName; exact inferInstance

/-- What `Clean` keeps true of its buffer on a rooted path: it starts with the
separator, and `dotdot` stays 1. -/
def RootedBuf (rooted : Bool) (st : List Char × Nat) : Prop :=
  rooted = true → (∃ t, st.1 = Separator :: t) ∧ st.2 = 1

/-- No `File` object is shared: two keys never hold the same pointer. -/
def FileSystem.Exclusive (fs : FileSystem) : Prop :=
  ∀ k1 k2 p, fs.files k1 = some p → fs.files k2 = some p → k1 = k2

/-- Every key owns its `File` object: the pointers are allocated and not
shared. -/
def FileSystem.Owned (fs : FileSystem) : Prop := fs.Allocated ∧ fs.Exclusive

/-- Every key is the join of the path and the name of the record it holds. -/
def FileSystem.Keyed (fs : FileSystem) : Prop :=
  ∀ k r, fs.record k = some r → filepathJoin r.Path r.Name = k

/-- Every stored record has a plain name. -/
def FileSystem.PlainNames (fs : FileSystem) : Prop :=
  ∀ k r, fs.record k = some r → plainName r.Name

/-- The table is owned, keyed by path and name, and holds plain names. -/
def FileSystem.Consistent (fs : FileSystem) : Prop :=
  fs.Owned ∧ fs.Keyed ∧ fs.PlainNames

/-- The call, when it is a `CreateFile`, a `Copy` or a `MoveFile`, is given a
plain file name. -/
def Op.plainlyNamed : Op → Prop
  | .create name _ _ => plainName name
  | .copy name _ _ => plainName name
  | .move name _ _ => plainName name
  | _ => True

instance (op : Op) : Decidable op.plainlyNamed := by
  cases op <;> unfold Op.plainlyNamed <;> exact inferInstance

/-- Two calls: a file `b` is created under `a`, then copied to `a` under the
name `a/b` from the empty path. -/
def slashCopy : List Op := [.create "b" "a" "c", .copy "a/b" "" "a"]

/-- Two calls: a file `b` is created under `a`, then moved to `x` under the
name `a/b` from the empty path. -/
def slashMove : List Op := [.create "b" "a" "c", .move "a/b" "" "x"]

/-- Three calls with plain names: a file is created, copied and moved. -/
def plainCalls : List Op :=
  [.create "a.txt" "/d" "v1", .copy "a.txt" "/d" "/b", .move "a.txt" "/d" "/e"]

/-- The key a call adds when it succeeds: the created key of `CreateFile`, the
destination key of `Copy` and `MoveFile`. -/
def Op.target : Op → Option String
  | .create name path _ => some (filepathJoin path name)
  | .copy name _ destPath => some (filepathJoin destPath name)
  | .move name _ destPath => some (filepathJoin destPath name)
  | _ => none

/-- The key of the file a call works on: the key of `DeleteFile`,
`SaveVersion` and `SwitchVersion`, the source key of `Copy` and `MoveFile`. -/
def Op.subject : Op → Option String
  | .create _ _ _ => none
  | .delete name path => some (filepathJoin path name)
  | .copy name srcPath _ => some (filepathJoin srcPath name)
  | .move name srcPath _ => some (filepathJoin srcPath name)
  | .save name path _ => some (filepathJoin path name)
  | .switch name path _ => some (filepathJoin path name)

/-- The call is a `CreateFile` for the key. -/
def Op.createsKey (key : String) : Op → Prop
  | .create name path _ => filepathJoin path name = key
  | _ => False

instance (key : String) (op : Op) : Decidable (op.createsKey key) := by
  cases op <;> unfold Op.createsKey <;> exact inferInstance

/-- The keys a call is about: the created key of `CreateFile`, the deleted key
of `DeleteFile`, the destination key of `Copy`, the source and destination keys
of `MoveFile`, the saved key of `SaveVersion`; `SwitchVersion` has none. -/
def Op.ownKeys : Op → List String
  | .create name path _ => [filepathJoin path name]
  | .delete name path => [filepathJoin path name]
  | .copy name _ destPath => [filepathJoin destPath name]
  | .move name srcPath destPath => [filepathJoin srcPath name, filepathJoin destPath name]
  | .save name path _ => [filepathJoin path name]
  | .switch _ _ _ => []

/-- Every stored version lies between 1 and `n`. -/
def FileSystem.VersionsWithin (fs : FileSystem) (n : Int) : Prop :=
  ∀ k r, fs.record k = some r → 1 ≤ r.Version ∧ r.Version ≤ n

/-- The calls `CreateFile("a.txt", "/d", "v1")` and then `n` times
`SaveVersion("a.txt", "/d", "v2")`. -/
def saveCalls (n : Nat) : List Op :=
  .create "a.txt" "/d" "v1" :: List.replicate n (.save "a.txt" "/d" "v2")

/-- The example scenario, first call: `CreateFile("a.txt", "/d", "v1")` on the
empty table. -/
def afterCreate : Outcome := NewFileSystem.CreateFile "a.txt" "/d" "v1"

/-- The example scenario, second call: `SaveVersion("a.txt", "/d", "v2")`. -/
def afterSave : Outcome := afterCreate.fs.SaveVersion "a.txt" "/d" "v2"

/-- The example scenario, third call: `SwitchVersion("a.txt", "/d", 1)`. -/
def afterSwitch : Outcome := afterSave.fs.SwitchVersion "a.txt" "/d" 1

/-- The example scenario, fourth call: `Copy("a.txt", "/d", "/b")`. -/
def afterCopy : Outcome := afterSwitch.fs.Copy "a.txt" "/d" "/b"

/-- The example scenario, fifth call: `MoveFile("a.txt", "/d", "/e")`. -/
def afterMove : Outcome := afterCopy.fs.MoveFile "a.txt" "/d" "/e"

/-- The example scenario, sixth call: `DeleteFile("a.txt", "/e")`. -/
def afterDelete : Outcome := afterMove.fs.DeleteFile "a.txt" "/e"

/-- The example scenario, the delete repeated: `DeleteFile("a.txt", "/e")`. -/
def afterDeleteAgain : Outcome := afterDelete.fs.DeleteFile "a.txt" "/e"

/-! ## Theorems -/

theorem mapSet_same (m : String → Option Nat) (k : String) (p : Nat) :
    mapSet m k p k = some p := by
  simp [mapSet]

theorem mapSet_other (m : String → Option Nat) (k k' : String) (p : Nat) (h : k' ≠ k) :
    mapSet m k p k' = m k' := by
  simp [mapSet, h]

theorem mapDelete_same (m : String → Option Nat) (k : String) :
    mapDelete m k k = none := by
  simp [mapDelete]

theorem mapDelete_other (m : String → Option Nat) (k k' : String) (h : k' ≠ k) :
    mapDelete m k k' = m k' := by
  simp [mapDelete, h]

theorem store_same (h : Nat → File) (p : Nat) (f : File) : store h p f p = f := by
  simp [store]

theorem store_other (h : Nat → File) (p q : Nat) (f : File) (hq : q ≠ p) :
    store h p f q = h q := by
  simp [store, hq]

theorem Allocated_New : NewFileSystem.Allocated := by
  intro k p h
  simp [NewFileSystem] at h

theorem Allocated_CreateFile (fs : FileSystem) (name path contents : String)
    (h : fs.Allocated) : (fs.CreateFile name path contents).fs.Allocated := by
  unfold FileSystem.CreateFile
  split
  · exact h
  · intro k p hk
    simp only [mapSet] at hk
    show p < fs.next + 1
    split at hk
    · simp only [Option.some.injEq] at hk; omega
    · have := h k p hk; omega

theorem Allocated_oneFile : oneFile.Allocated :=
  Allocated_CreateFile _ _ _ _ Allocated_New

theorem Allocated_twoFiles : twoFiles.Allocated :=
  Allocated_CreateFile _ _ _ _ Allocated_oneFile

/-- C1. `CreateFile(name, path, contents)` fails, with an error of kind
AlreadyExists, exactly when the key `join(path, name)` is already present, and
succeeds exactly when it is absent; after a success the key leads to the record
with `Name = name`, `Path = path`, `Contents = contents` and `Version = 1`. -/
theorem CreateFile_spec (fs : FileSystem) (name path contents : String) :
    ((fs.CreateFile name path contents).failsWith .AlreadyExists ↔
        fs.present (filepathJoin path name)) ∧
    ((fs.CreateFile name path contents).succeeds ↔
        ¬ fs.present (filepathJoin path name)) ∧
    ((fs.CreateFile name path contents).succeeds →
        (fs.CreateFile name path contents).fs.record (filepathJoin path name) =
          some { Name := name, Path := path, Contents := contents, Version := 1 }) := by
  unfold FileSystem.CreateFile Outcome.failsWith Outcome.succeeds FileSystem.present
  cases h : fs.files (filepathJoin path name) with
  | none => simp [FileSystem.record, mapSet, store]
  | some p => simp [Error.kind]

/-- C1, on an instance: creating `/d/a.txt` in the empty table succeeds and
stores the record at version 1. -/
theorem CreateFile_spec_witness :
    (NewFileSystem.CreateFile "a.txt" "/d" "v1").succeeds ∧
    (NewFileSystem.CreateFile "a.txt" "/d" "v1").fs.record (filepathJoin "/d" "a.txt") =
      some { Name := "a.txt", Path := "/d", Contents := "v1", Version := 1 } :=
  ⟨by decide,
   (CreateFile_spec NewFileSystem "a.txt" "/d" "v1").2.2 (by decide)⟩

theorem CreateFile_present (fs : FileSystem) (name path contents : String) (p : Nat)
    (h : fs.files (filepathJoin path name) = some p) :
    fs.CreateFile name path contents =
      { fs := fs, err := some (.alreadyExists name), out := "" } := by
  simp [FileSystem.CreateFile, h]

theorem CreateFile_absent (fs : FileSystem) (name path contents : String)
    (h : fs.files (filepathJoin path name) = none) :
    fs.CreateFile name path contents =
      { fs :=
          { files := mapSet fs.files (filepathJoin path name) fs.next
            heap := store fs.heap fs.next
              { Name := name, Path := path, Contents := contents, Version := 1 }
            next := fs.next + 1 }
        err := none
        out := "" } := by
  simp [FileSystem.CreateFile, h]

theorem DeleteFile_absent (fs : FileSystem) (name path : String)
    (h : fs.files (filepathJoin path name) = none) :
    fs.DeleteFile name path = { fs := fs, err := some (.doesNotExist name), out := "" } := by
  simp [FileSystem.DeleteFile, h]

theorem DeleteFile_present (fs : FileSystem) (name path : String) (p : Nat)
    (h : fs.files (filepathJoin path name) = some p) :
    fs.DeleteFile name path =
      { fs := { fs with files := mapDelete fs.files (filepathJoin path name) }
        err := none
        out := "" } := by
  simp [FileSystem.DeleteFile, h]

theorem Copy_absent (fs : FileSystem) (name srcPath destPath : String)
    (h : fs.files (filepathJoin srcPath name) = none) :
    fs.Copy name srcPath destPath =
      { fs := fs, err := some (.doesNotExist name), out := "" } := by
  simp [FileSystem.Copy, h]

theorem Copy_occupied (fs : FileSystem) (name srcPath destPath : String) (p q : Nat)
    (hs : fs.files (filepathJoin srcPath name) = some p)
    (hd : fs.files (filepathJoin destPath name) = some q) :
    fs.Copy name srcPath destPath =
      { fs := fs, err := some (.existsInDestination name), out := "" } := by
  simp [FileSystem.Copy, hs, hd]

theorem Copy_free (fs : FileSystem) (name srcPath destPath : String) (p : Nat)
    (hs : fs.files (filepathJoin srcPath name) = some p)
    (hd : fs.files (filepathJoin destPath name) = none) :
    fs.Copy name srcPath destPath =
      { fs :=
          { files := mapSet fs.files (filepathJoin destPath name) fs.next
            heap := store fs.heap fs.next { fs.heap p with Path := destPath }
            next := fs.next + 1 }
        err := none
        out := "" } := by
  simp [FileSystem.Copy, hs, hd]

theorem MoveFile_absent (fs : FileSystem) (name srcPath destPath : String)
    (h : fs.files (filepathJoin srcPath name) = none) :
    fs.MoveFile name srcPath destPath =
      { fs := fs, err := some (.doesNotExist name), out := "" } := by
  simp [FileSystem.MoveFile, h]

theorem MoveFile_occupied (fs : FileSystem) (name srcPath destPath : String) (p q : Nat)
    (hs : fs.files (filepathJoin srcPath name) = some p)
    (hd : fs.files (filepathJoin destPath name) = some q) :
    fs.MoveFile name srcPath destPath =
      { fs := fs, err := some (.existsInDestination name), out := "" } := by
  simp [FileSystem.MoveFile, hs, hd]

theorem MoveFile_free (fs : FileSystem) (name srcPath destPath : String) (p : Nat)
    (hs : fs.files (filepathJoin srcPath name) = some p)
    (hd : fs.files (filepathJoin destPath name) = none) :
    fs.MoveFile name srcPath destPath =
      { fs :=
          { files := mapSet (mapDelete fs.files (filepathJoin srcPath name))
              (filepathJoin destPath name) p
            heap := store fs.heap p { fs.heap p with Path := destPath }
            next := fs.next }
        err := none
        out := "" } := by
  simp [FileSystem.MoveFile, hs, hd]

theorem SaveVersion_absent (fs : FileSystem) (name path contents : String)
    (h : fs.files (filepathJoin path name) = none) :
    fs.SaveVersion name path contents =
      { fs := fs, err := some (.doesNotExist name), out := "" } := by
  simp [FileSystem.SaveVersion, h]

theorem SaveVersion_present (fs : FileSystem) (name path contents : String) (p : Nat)
    (h : fs.files (filepathJoin path name) = some p) :
    fs.SaveVersion name path contents =
      { fs :=
          { fs with
            heap := store fs.heap p
              { fs.heap p with
                Version := wrapInt ((fs.heap p).Version + 1), Contents := contents } }
        err := none
        out := "" } := by
  simp [FileSystem.SaveVersion, h]

theorem SwitchVersion_absent (fs : FileSystem) (name path : String) (version : Int)
    (h : fs.files (filepathJoin path name) = none) :
    fs.SwitchVersion name path version =
      { fs := fs, err := some (.doesNotExist name), out := "" } := by
  simp [FileSystem.SwitchVersion, h]

theorem SwitchVersion_invalid (fs : FileSystem) (name path : String) (version : Int) (p : Nat)
    (h : fs.files (filepathJoin path name) = some p)
    (hv : version ≤ 0 ∨ version > (fs.heap p).Version) :
    fs.SwitchVersion name path version =
      { fs := fs, err := some .invalidVersion, out := "" } := by
  simp [FileSystem.SwitchVersion, h, hv]

theorem SwitchVersion_valid (fs : FileSystem) (name path : String) (version : Int) (p : Nat)
    (h : fs.files (filepathJoin path name) = some p)
    (hv : ¬ (version ≤ 0 ∨ version > (fs.heap p).Version)) :
    fs.SwitchVersion name path version =
      { fs := fs, err := none, out := switchReport name version (fs.heap p).Contents } := by
  simp only [FileSystem.SwitchVersion, h, if_neg hv]

theorem ne_of_some_none (m : String → Option Nat) (k k' : String) (p : Nat)
    (hs : m k = some p) (hd : m k' = none) : k ≠ k' := by
  intro he; rw [he, hd] at hs; exact absurd hs (by simp)

/-- C2. `Copy(name, srcPath, destPath)` fails with NotFound when the source
key is absent, fails with AlreadyExists when the source key is present and the
destination key is occupied, and succeeds otherwise. After a success the
destination key leads to a record with the name, contents and version of the
source record and with `Path = destPath`, and the source key still leads to the
source record, all four fields as before. (`Allocated`: the pointers of the
table refer to existing objects, as in every Go state.) -/
theorem Copy_spec (fs : FileSystem) (name srcPath destPath : String) (h : fs.Allocated) :
    (¬ fs.present (filepathJoin srcPath name) →
        (fs.Copy name srcPath destPath).failsWith .NotFound) ∧
    (fs.present (filepathJoin srcPath name) → fs.present (filepathJoin destPath name) →
        (fs.Copy name srcPath destPath).failsWith .AlreadyExists) ∧
    (fs.present (filepathJoin srcPath name) → ¬ fs.present (filepathJoin destPath name) →
        (fs.Copy name srcPath destPath).succeeds) ∧
    ((fs.Copy name srcPath destPath).succeeds →
        ∃ r, fs.record (filepathJoin srcPath name) = some r ∧
          (fs.Copy name srcPath destPath).fs.record (filepathJoin destPath name) =
            some { Name := r.Name, Path := destPath, Contents := r.Contents,
                   Version := r.Version } ∧
          (fs.Copy name srcPath destPath).fs.record (filepathJoin srcPath name) = some r) := by
  unfold Outcome.failsWith Outcome.succeeds FileSystem.present
  cases hs : fs.files (filepathJoin srcPath name) with
  | none => simp [Copy_absent _ _ _ _ hs, Error.kind]
  | some p =>
    cases hd : fs.files (filepathJoin destPath name) with
    | some q => simp [Copy_occupied _ _ _ _ _ _ hs hd, Error.kind]
    | none =>
      have hne := ne_of_some_none _ _ _ _ hs hd
      have hp : p ≠ fs.next := Nat.ne_of_lt (h _ _ hs)
      simp [Copy_free _ _ _ _ _ hs hd, FileSystem.record, mapSet, store, hs, hne, hp]

/-- C2, on an instance: copying `/d/a.txt` to `/b` in the one-file table. -/
theorem Copy_spec_witness :
    oneFile.Allocated ∧ (oneFile.Copy "a.txt" "/d" "/b").succeeds ∧
    ∃ r, oneFile.record (filepathJoin "/d" "a.txt") = some r ∧
      (oneFile.Copy "a.txt" "/d" "/b").fs.record (filepathJoin "/b" "a.txt") =
        some { Name := r.Name, Path := "/b", Contents := r.Contents, Version := r.Version } ∧
      (oneFile.Copy "a.txt" "/d" "/b").fs.record (filepathJoin "/d" "a.txt") = some r :=
  ⟨Allocated_oneFile, by decide,
   (Copy_spec oneFile "a.txt" "/d" "/b" Allocated_oneFile).2.2.2 (by decide)⟩

/-- C3. Copy independence: after a successful `Copy(f, A, B)`, a
`SaveVersion(f, B, c)` succeeds and leaves the record at `join(A, f)` as it was
(version and contents included), and a `SaveVersion(f, A, c)` succeeds and
leaves the record at `join(B, f)` as it was. (`Allocated`: the pointers of the
table refer to existing objects, as in every Go state.) -/
theorem Copy_independent (fs : FileSystem) (f A B c : String) (h : fs.Allocated)
    (hc : (fs.Copy f A B).succeeds) :
    (((fs.Copy f A B).fs.SaveVersion f B c).succeeds ∧
      ((fs.Copy f A B).fs.SaveVersion f B c).fs.record (filepathJoin A f) =
        (fs.Copy f A B).fs.record (filepathJoin A f)) ∧
    (((fs.Copy f A B).fs.SaveVersion f A c).succeeds ∧
      ((fs.Copy f A B).fs.SaveVersion f A c).fs.record (filepathJoin B f) =
        (fs.Copy f A B).fs.record (filepathJoin B f)) := by
  revert hc
  unfold Outcome.succeeds
  cases hs : fs.files (filepathJoin A f) with
  | none => simp [Copy_absent _ _ _ _ hs]
  | some p =>
    cases hd : fs.files (filepathJoin B f) with
    | some q => simp [Copy_occupied _ _ _ _ _ _ hs hd]
    | none =>
      have hne := ne_of_some_none _ _ _ _ hs hd
      have hp : p ≠ fs.next := Nat.ne_of_lt (h _ _ hs)
      intro _
      rw [Copy_free _ _ _ _ _ hs hd]
      have hB : mapSet fs.files (filepathJoin B f) fs.next (filepathJoin B f) = some fs.next :=
        mapSet_same _ _ _
      have hA : mapSet fs.files (filepathJoin B f) fs.next (filepathJoin A f) = some p := by
        rw [mapSet_other _ _ _ _ hne, hs]
      constructor
      · rw [SaveVersion_present _ _ _ _ _ hB]
        simp [FileSystem.record, hA, store, hp]
      · rw [SaveVersion_present _ _ _ _ _ hA]
        simp [FileSystem.record, hB, store, hp.symm]

/-- C3, on an instance: after copying `/d/a.txt` to `/b`, saving either file
leaves the other one alone. -/
theorem Copy_independent_witness :
    oneFile.Allocated ∧ (oneFile.Copy "a.txt" "/d" "/b").succeeds ∧
    ((oneFile.Copy "a.txt" "/d" "/b").fs.SaveVersion "a.txt" "/b" "v2").fs.record
        (filepathJoin "/d" "a.txt") =
      (oneFile.Copy "a.txt" "/d" "/b").fs.record (filepathJoin "/d" "a.txt") :=
  ⟨Allocated_oneFile, by decide,
   (Copy_independent oneFile "a.txt" "/d" "/b" "v2" Allocated_oneFile (by decide)).1.2⟩

/-- C4, as stated, fails: with the destination key occupied and the source key
absent, `MoveFile` returns the NotFound error, not AlreadyExists. -/
theorem MoveFile_occupied_not_AlreadyExists :
    oneFile.present (filepathJoin "/d" "a.txt") ∧
    (oneFile.MoveFile "a.txt" "/x" "/d").failsWith .NotFound ∧
    ¬ (oneFile.MoveFile "a.txt" "/x" "/d").failsWith .AlreadyExists := by
  decide

/-- C4, amended. `MoveFile(f, A, B)` fails with NotFound when the key
`join(A, f)` is absent, fails with AlreadyExists when `join(A, f)` is present
and `join(B, f)` is occupied, and succeeds otherwise; after a success the key
`join(A, f)` is absent and the key `join(B, f)` leads to a record with the
name, contents and version of the record that was at `join(A, f)` and with
`Path = B`. -/
theorem MoveFile_spec (fs : FileSystem) (f A B : String) :
    (¬ fs.present (filepathJoin A f) → (fs.MoveFile f A B).failsWith .NotFound) ∧
    (fs.present (filepathJoin A f) → fs.present (filepathJoin B f) →
        (fs.MoveFile f A B).failsWith .AlreadyExists) ∧
    (fs.present (filepathJoin A f) → ¬ fs.present (filepathJoin B f) →
        (fs.MoveFile f A B).succeeds) ∧
    ((fs.MoveFile f A B).succeeds →
        ∃ r, fs.record (filepathJoin A f) = some r ∧
          ¬ (fs.MoveFile f A B).fs.present (filepathJoin A f) ∧
          (fs.MoveFile f A B).fs.record (filepathJoin B f) =
            some { Name := r.Name, Path := B, Contents := r.Contents,
                   Version := r.Version }) := by
  unfold Outcome.failsWith Outcome.succeeds FileSystem.present
  cases hs : fs.files (filepathJoin A f) with
  | none => simp [MoveFile_absent _ _ _ _ hs, Error.kind]
  | some p =>
    cases hd : fs.files (filepathJoin B f) with
    | some q => simp [MoveFile_occupied _ _ _ _ _ _ hs hd, Error.kind]
    | none =>
      have hne := ne_of_some_none _ _ _ _ hs hd
      simp [MoveFile_free _ _ _ _ _ hs hd, FileSystem.record, mapSet, mapDelete, store, hs, hne]

/-- C4 amended, on an instance: moving `/d/a.txt` to `/e` in the one-file
table. -/
theorem MoveFile_spec_witness :
    (oneFile.MoveFile "a.txt" "/d" "/e").succeeds ∧
    ∃ r, oneFile.record (filepathJoin "/d" "a.txt") = some r ∧
      ¬ (oneFile.MoveFile "a.txt" "/d" "/e").fs.present (filepathJoin "/d" "a.txt") ∧
      (oneFile.MoveFile "a.txt" "/d" "/e").fs.record (filepathJoin "/e" "a.txt") =
        some { Name := r.Name, Path := "/e", Contents := r.Contents, Version := r.Version } :=
  ⟨by decide, (MoveFile_spec oneFile "a.txt" "/d" "/e").2.2.2 (by decide)⟩

theorem wrapInt_of_lt (v : Int) (h0 : minInt ≤ v) (h1 : v < maxInt) :
    wrapInt (v + 1) = v + 1 := by
  unfold wrapInt
  unfold minInt at h0
  unfold maxInt at h1
  omega

theorem wrapInt_maxInt : wrapInt (maxInt + 1) = minInt := by
  unfold wrapInt maxInt minInt
  norm_num

/-- C5, as stated, fails: on a file whose version is the largest Go `int`,
`SaveVersion` succeeds and the version becomes the smallest Go `int`, which is
not the old version plus one. -/
theorem SaveVersion_wraps :
    (fullVersion.SaveVersion "a.txt" "/d" "v2").succeeds ∧
    (fullVersion.record (filepathJoin "/d" "a.txt")).map File.Version = some maxInt ∧
    ((fullVersion.SaveVersion "a.txt" "/d" "v2").fs.record (filepathJoin "/d" "a.txt")).map
        File.Version = some minInt ∧
    minInt ≠ maxInt + 1 := by
  have hk : fullVersion.files (filepathJoin "/d" "a.txt") = some 0 := by decide
  rw [SaveVersion_present _ _ _ _ _ hk]
  refine ⟨rfl, ?_, ?_, by decide⟩
  · simp only [FileSystem.record, hk]
    rfl
  · simp only [FileSystem.record, hk, Option.map_some', store_same]
    exact congrArg some wrapInt_maxInt

/-- C5, amended. `SaveVersion(name, path, contents)` fails with NotFound
exactly when the key `join(path, name)` is absent and succeeds exactly when it
is present; after a success the record at the key has the new contents, its
name and path are unchanged, and its version is the old one plus 1 as long as
the old version is a Go `int` below the largest one (at the largest one,
`2^63 - 1`, the increment wraps to the smallest one). -/
theorem SaveVersion_spec (fs : FileSystem) (name path contents : String) :
    ((fs.SaveVersion name path contents).failsWith .NotFound ↔
        ¬ fs.present (filepathJoin path name)) ∧
    ((fs.SaveVersion name path contents).succeeds ↔ fs.present (filepathJoin path name)) ∧
    ((fs.SaveVersion name path contents).succeeds →
        ∃ r r', fs.record (filepathJoin path name) = some r ∧
          (fs.SaveVersion name path contents).fs.record (filepathJoin path name) = some r' ∧
          r'.Contents = contents ∧ r'.Name = r.Name ∧ r'.Path = r.Path ∧
          (minInt ≤ r.Version → r.Version < maxInt → r'.Version = r.Version + 1) ∧
          (r.Version = maxInt → r'.Version = minInt)) := by
  unfold Outcome.failsWith Outcome.succeeds FileSystem.present
  cases hs : fs.files (filepathJoin path name) with
  | none => simp [SaveVersion_absent _ _ _ _ hs, Error.kind]
  | some p =>
    simp only [SaveVersion_present _ _ _ _ _ hs, FileSystem.record, hs, Option.map_some',
      store_same]
    refine ⟨by simp [Error.kind], by simp, fun _ => ⟨_, _, rfl, rfl, rfl, rfl, rfl, ?_, ?_⟩⟩
    · intro h0 h1; exact wrapInt_of_lt _ h0 h1
    · intro h; show wrapInt ((fs.heap p).Version + 1) = minInt
      rw [h, wrapInt_maxInt]

/-- C5 amended, on an instance: saving `/d/a.txt` in the one-file table takes
it from version 1 to version 2. -/
theorem SaveVersion_spec_witness :
    (oneFile.SaveVersion "a.txt" "/d" "v2").succeeds ∧
    ∃ r r', oneFile.record (filepathJoin "/d" "a.txt") = some r ∧
      (oneFile.SaveVersion "a.txt" "/d" "v2").fs.record (filepathJoin "/d" "a.txt") = some r' ∧
      r'.Contents = "v2" ∧ r'.Name = r.Name ∧ r'.Path = r.Path ∧
      (minInt ≤ r.Version → r.Version < maxInt → r'.Version = r.Version + 1) ∧
      (r.Version = maxInt → r'.Version = minInt) :=
  ⟨by decide, (SaveVersion_spec oneFile "a.txt" "/d" "v2").2.2 (by decide)⟩

/-- C6. SwitchVersion bounds: when the key `join(path, name)` is present with
current version `V`, `SwitchVersion(name, path, v)` fails with InvalidVersion
if `v <= 0` or `v > V` and succeeds if `1 <= v <= V`; when the key is absent it
fails with NotFound. -/
theorem SwitchVersion_bounds (fs : FileSystem) (name path : String) (v : Int) :
    (∀ r, fs.record (filepathJoin path name) = some r →
        ((v ≤ 0 ∨ v > r.Version) → (fs.SwitchVersion name path v).failsWith .InvalidVersion) ∧
        ((1 ≤ v ∧ v ≤ r.Version) → (fs.SwitchVersion name path v).succeeds)) ∧
    (¬ fs.present (filepathJoin path name) →
        (fs.SwitchVersion name path v).failsWith .NotFound) := by
  unfold Outcome.failsWith Outcome.succeeds FileSystem.present
  cases hs : fs.files (filepathJoin path name) with
  | none => simp [SwitchVersion_absent _ _ _ _ hs, Error.kind, FileSystem.record, hs]
  | some p =>
    refine ⟨?_, by simp⟩
    intro r hr
    simp only [FileSystem.record, hs, Option.map_some', Option.some.injEq] at hr
    subst hr
    constructor
    · intro hv
      simp [SwitchVersion_invalid _ _ _ _ _ hs hv, Error.kind]
    · intro hv
      have hv' : ¬ (v ≤ 0 ∨ v > (fs.heap p).Version) := by omega
      simp [SwitchVersion_valid _ _ _ _ _ hs hv']

/-- C6, on an instance: on the one-file table, at version 1, version 1 is
accepted and versions 0 and 2 are refused. -/
theorem SwitchVersion_bounds_witness :
    (oneFile.SwitchVersion "a.txt" "/d" 1).succeeds ∧
    (oneFile.SwitchVersion "a.txt" "/d" 0).failsWith .InvalidVersion ∧
    (oneFile.SwitchVersion "a.txt" "/d" 2).failsWith .InvalidVersion :=
  ⟨((SwitchVersion_bounds oneFile "a.txt" "/d" 1).1
      { Name := "a.txt", Path := "/d", Contents := "v1", Version := 1 } (by decide)).2
      (by decide),
   by decide, by decide⟩

/-- C7. `DeleteFile(name, path)` fails with NotFound exactly when the key
`join(path, name)` is absent and succeeds exactly when it is present; after a
success the key is absent. -/
theorem DeleteFile_spec (fs : FileSystem) (name path : String) :
    ((fs.DeleteFile name path).failsWith .NotFound ↔ ¬ fs.present (filepathJoin path name)) ∧
    ((fs.DeleteFile name path).succeeds ↔ fs.present (filepathJoin path name)) ∧
    ((fs.DeleteFile name path).succeeds →
        ¬ (fs.DeleteFile name path).fs.present (filepathJoin path name)) := by
  unfold Outcome.failsWith Outcome.succeeds FileSystem.present
  cases hs : fs.files (filepathJoin path name) with
  | none => simp [DeleteFile_absent _ _ _ hs, Error.kind]
  | some p => simp [DeleteFile_present _ _ _ _ hs, mapDelete]

/-- C7, on an instance: deleting `/d/a.txt` from the one-file table. -/
theorem DeleteFile_spec_witness :
    (oneFile.DeleteFile "a.txt" "/d").succeeds ∧
    ¬ (oneFile.DeleteFile "a.txt" "/d").fs.present (filepathJoin "/d" "a.txt") :=
  ⟨by decide, (DeleteFile_spec oneFile "a.txt" "/d").2.2 (by decide)⟩

/-- C8. Failure atomicity: whenever a call of `CreateFile`, `DeleteFile`,
`Copy`, `MoveFile`, `SaveVersion` or `SwitchVersion` returns an error, the file
system after the call is the file system before it: the same map, and the same
objects behind it. -/
theorem failure_leaves_table (fs : FileSystem) (op : Op)
    (h : ¬ (fs.apply op).succeeds) : (fs.apply op).fs = fs := by
  revert h
  unfold Outcome.succeeds
  cases op with
  | create name path contents =>
    simp only [FileSystem.apply]
    cases hs : fs.files (filepathJoin path name) with
    | none => simp [CreateFile_absent _ _ _ _ hs]
    | some p => simp [CreateFile_present _ _ _ _ _ hs]
  | delete name path =>
    simp only [FileSystem.apply]
    cases hs : fs.files (filepathJoin path name) with
    | none => simp [DeleteFile_absent _ _ _ hs]
    | some p => simp [DeleteFile_present _ _ _ _ hs]
  | copy name srcPath destPath =>
    simp only [FileSystem.apply]
    cases hs : fs.files (filepathJoin srcPath name) with
    | none => simp [Copy_absent _ _ _ _ hs]
    | some p =>
      cases hd : fs.files (filepathJoin destPath name) with
      | some q => simp [Copy_occupied _ _ _ _ _ _ hs hd]
      | none => simp [Copy_free _ _ _ _ _ hs hd]
  | move name srcPath destPath =>
    simp only [FileSystem.apply]
    cases hs : fs.files (filepathJoin srcPath name) with
    | none => simp [MoveFile_absent _ _ _ _ hs]
    | some p =>
      cases hd : fs.files (filepathJoin destPath name) with
      | some q => simp [MoveFile_occupied _ _ _ _ _ _ hs hd]
      | none => simp [MoveFile_free _ _ _ _ _ hs hd]
  | save name path contents =>
    simp only [FileSystem.apply]
    cases hs : fs.files (filepathJoin path name) with
    | none => simp [SaveVersion_absent _ _ _ _ hs]
    | some p => simp [SaveVersion_present _ _ _ _ _ hs]
  | switch name path version =>
    simp only [FileSystem.apply]
    cases hs : fs.files (filepathJoin path name) with
    | none => simp [SwitchVersion_absent _ _ _ _ hs]
    | some p =>
      by_cases hv : version ≤ 0 ∨ version > (fs.heap p).Version
      · simp [SwitchVersion_invalid _ _ _ _ _ hs hv]
      · simp [SwitchVersion_valid _ _ _ _ _ hs hv]

/-- C8, on an instance: a `MoveFile` onto the occupied key `/b/a.txt` fails and
leaves the two-file table as it was. -/
theorem failure_leaves_table_witness :
    ¬ (twoFiles.apply (.move "a.txt" "/d" "/b")).succeeds ∧
    (twoFiles.apply (.move "a.txt" "/d" "/b")).fs = twoFiles :=
  ⟨by decide, failure_leaves_table twoFiles (.move "a.txt" "/d" "/b") (by decide)⟩

/-! ### The last element of a joined path -/

theorem splitElems_ne_nil (l : List Char) : splitElems l ≠ [] := by
  cases l with
  | nil => simp [splitElems]
  | cons c cs =>
    unfold splitElems
    split
    · simp
    · split <;> simp

theorem splitElems_noSep (n : List Char) (h : Separator ∉ n) : splitElems n = [n] := by
  induction n with
  | nil => rfl
  | cons c cs ih =>
    have hc : c ≠ Separator := fun he => h (by simp [he])
    have hcs : Separator ∉ cs := fun hm => h (List.mem_cons_of_mem _ hm)
    unfold splitElems
    rw [if_neg hc, ih hcs]

theorem splitElems_append_sep (x y : List Char) :
    splitElems (x ++ Separator :: y) = splitElems x ++ splitElems y := by
  induction x with
  | nil => simp [splitElems]
  | cons c cs ih =>
    by_cases hc : c = Separator
    · simp only [List.cons_append]
      rw [splitElems, if_pos hc, ih, splitElems, if_pos hc]
      rfl
    · simp only [List.cons_append]
      rw [splitElems, if_neg hc, ih, splitElems, if_neg hc]
      cases hs : splitElems cs with
      | nil => exact absurd hs (splitElems_ne_nil cs)
      | cons e es => rfl

theorem le_backtrack (buf : List Char) (dotdot w : Nat) (h : dotdot ≤ w) :
    dotdot ≤ backtrack buf dotdot w := by
  induction w with
  | zero => simpa [backtrack] using h
  | succ w ih =>
    unfold backtrack
    split
    · rename_i hc
      exact ih (by omega)
    · exact h

theorem cleanStep_rootedBuf (rooted : Bool) (st : List Char × Nat) (e : List Char)
    (h : RootedBuf rooted st) : RootedBuf rooted (cleanStep rooted st e) := by
  intro hr
  obtain ⟨⟨t, ht⟩, hd⟩ := h hr
  unfold cleanStep
  split
  · exact ⟨⟨t, ht⟩, hd⟩
  · split
    · exact ⟨⟨t, ht⟩, hd⟩
    · split
      · split
        · rename_i hlen
          refine ⟨?_, hd⟩
          have hb : 1 ≤ backtrack st.1 st.2 (st.1.length - 1) := by
            have := le_backtrack st.1 st.2 (st.1.length - 1) (by omega)
            omega
          obtain ⟨k, hk⟩ : ∃ k, backtrack st.1 st.2 (st.1.length - 1) = k + 1 :=
            ⟨backtrack st.1 st.2 (st.1.length - 1) - 1, by omega⟩
          rw [hk, ht]
          exact ⟨_, rfl⟩
        · split
          · rename_i hf; rw [hr] at hf; exact absurd hf (by simp)
          · exact ⟨⟨t, ht⟩, hd⟩
      · refine ⟨?_, hd⟩
        dsimp only
        split
        · rw [ht]; exact ⟨_, rfl⟩
        · rw [ht]; exact ⟨_, rfl⟩

theorem foldl_rootedBuf (rooted : Bool) (es : List (List Char)) (st : List Char × Nat)
    (h : RootedBuf rooted st) : RootedBuf rooted (es.foldl (cleanStep rooted) st) := by
  induction es generalizing st with
  | nil => exact h
  | cons e es ih => exact ih _ (cleanStep_rootedBuf rooted st e h)

/-- After a turn of `Clean` on a plain element, the buffer is not empty and its
last element is that element. -/
theorem cleanStep_plain (rooted : Bool) (st : List Char × Nat) (n : List Char)
    (h : RootedBuf rooted st) (h0 : n ≠ []) (hs : Separator ∉ n) (h1 : n ≠ ['.'])
    (h2 : n ≠ ['.', '.']) :
    (cleanStep rooted st n).1 ≠ [] ∧ lastElem (cleanStep rooted st n).1 = some n := by
  unfold cleanStep
  rw [if_neg h0, if_neg h1, if_neg h2]
  dsimp only
  split
  · constructor
    · simp [h0]
    · unfold lastElem
      rw [List.append_assoc, List.singleton_append, splitElems_append_sep,
        splitElems_noSep n hs, List.getLast?_concat]
  · rename_i hc
    constructor
    · simp [h0]
    · cases hr : rooted with
      | false =>
        have hl : st.1 = [] := by
          cases hst : st.1 with
          | nil => rfl
          | cons a t => exact absurd (Or.inr ⟨hr, by simp [hst]⟩) hc
        unfold lastElem
        rw [hl, List.nil_append, splitElems_noSep n hs]
        rfl
      | true =>
        obtain ⟨⟨t, ht⟩, _⟩ := h hr
        have hl : t = [] := by
          cases ht' : t with
          | nil => rfl
          | cons a t' => exact absurd (Or.inl ⟨hr, by simp [ht, ht']⟩) hc
        unfold lastElem
        rw [ht, hl]
        show (splitElems ([] ++ Separator :: n)).getLast? = some n
        rw [splitElems_append_sep, splitElems_noSep n hs, List.getLast?_concat]

/-- `Clean` on a path whose last element is a plain name keeps that name as the
last element. -/
theorem lastElem_cleanChars (path n : List Char) (h0 : n ≠ []) (hs : Separator ∉ n)
    (h1 : n ≠ ['.']) (h2 : n ≠ ['.', '.'])
    (hp : path = n ∨ ∃ x, path = x ++ Separator :: n) :
    lastElem (cleanChars path) = some n := by
  cases path with
  | nil =>
    rcases hp with hp | ⟨x, hx⟩
    · exact absurd hp.symm h0
    · exact absurd hx (by simp)
  | cons c cs =>
    unfold cleanChars
    dsimp only
    have key : ∀ (rooted : Bool) (start : List Char × Nat) (rest : List Char),
        RootedBuf rooted start → (rest = n ∨ ∃ x, rest = x ++ Separator :: n) →
        ((splitElems rest).foldl (cleanStep rooted) start).1 ≠ [] ∧
        lastElem ((splitElems rest).foldl (cleanStep rooted) start).1 = some n := by
      intro rooted start rest hst hrest
      have hsplit : ∃ es, splitElems rest = es ++ [n] := by
        rcases hrest with hr | ⟨x, hx⟩
        · exact ⟨[], by rw [hr, splitElems_noSep n hs]; rfl⟩
        · exact ⟨splitElems x, by rw [hx, splitElems_append_sep, splitElems_noSep n hs]⟩
      obtain ⟨es, hes⟩ := hsplit
      rw [hes, List.foldl_append, List.foldl_cons, List.foldl_nil]
      exact cleanStep_plain rooted _ n (foldl_rootedBuf rooted es start hst) h0 hs h1 h2
    by_cases hc : c = Separator
    · have hrest : cs = n ∨ ∃ x, cs = x ++ Separator :: n := by
        rcases hp with hp | ⟨x, hx⟩
        · exact absurd (by rw [← hp, hc]; simp) hs
        · cases x with
          | nil => simp only [List.nil_append, List.cons.injEq] at hx; exact Or.inl hx.2
          | cons a x' =>
            simp only [List.cons_append, List.cons.injEq] at hx
            exact Or.inr ⟨x', hx.2⟩
      have hk := key true ([Separator], 1) cs (fun _ => ⟨⟨[], rfl⟩, rfl⟩) hrest
      simp only [hc, decide_True, if_true]
      rw [if_neg (by simpa using hk.1)]
      exact hk.2
    · have hk := key false ([], 0) (c :: cs) (fun hf => absurd hf (by simp)) hp
      simp only [hc, decide_False, Bool.false_eq_true, if_false]
      rw [if_neg (by simpa using hk.1)]
      exact hk.2

/-- The last element of `filepath.Join(path, name)` is `name`, for a plain
`name`. -/
theorem lastElem_filepathJoin (path name : String) (h : plainName name) :
    lastElem (filepathJoin path name).data = some name.data := by
  obtain ⟨h0, hs, h1, h2⟩ := h
  unfold filepathJoin
  split
  · unfold Clean
    show lastElem (cleanChars (path ++ "/" ++ name).data) = some name.data
    apply lastElem_cleanChars _ _ h0 hs h1 h2
    right
    exact ⟨path.data, by simp [String.data_append, Separator]⟩
  · have hn : name ≠ "" := by
      intro he; apply h0; rw [he]
    rw [if_pos hn]
    unfold Clean
    show lastElem (cleanChars name.data) = some name.data
    exact lastElem_cleanChars _ _ h0 hs h1 h2 (Or.inl rfl)

/-- Two joins with plain names that give the same key have the same name. -/
theorem name_eq_of_filepathJoin_eq (p p' n n' : String) (hn : plainName n)
    (hn' : plainName n') (h : filepathJoin p n = filepathJoin p' n') : n = n' := by
  have h1 := lastElem_filepathJoin p n hn
  have h2 := lastElem_filepathJoin p' n' hn'
  rw [h, h2] at h1
  simp only [Option.some.injEq] at h1
  exact (String.ext h1).symm

/-! ### Ownership of the objects -/

theorem Owned_New : NewFileSystem.Owned := by
  refine ⟨Allocated_New, ?_⟩
  intro k1 k2 p h
  simp [NewFileSystem] at h

theorem Owned_fresh (fs : FileSystem) (key : String) (f : File) (h : fs.Owned) :
    FileSystem.Owned
      { files := mapSet fs.files key fs.next, heap := store fs.heap fs.next f,
        next := fs.next + 1 } := by
  obtain ⟨ha, he⟩ := h
  constructor
  · intro k p hk
    dsimp only at hk
    show p < fs.next + 1
    by_cases hkk : k = key
    · rw [show mapSet fs.files key fs.next k = some fs.next by simp [mapSet, hkk]] at hk
      simp only [Option.some.injEq] at hk; omega
    · rw [show mapSet fs.files key fs.next k = fs.files k by simp [mapSet, hkk]] at hk
      have := ha k p hk; omega
  · intro k1 k2 p h1 h2
    dsimp only at h1 h2
    by_cases hk1 : k1 = key <;> by_cases hk2 : k2 = key
    · rw [hk1, hk2]
    · rw [show mapSet fs.files key fs.next k1 = some fs.next by simp [mapSet, hk1]] at h1
      rw [show mapSet fs.files key fs.next k2 = fs.files k2 by simp [mapSet, hk2]] at h2
      simp only [Option.some.injEq] at h1
      have := ha k2 p h2; omega
    · rw [show mapSet fs.files key fs.next k2 = some fs.next by simp [mapSet, hk2]] at h2
      rw [show mapSet fs.files key fs.next k1 = fs.files k1 by simp [mapSet, hk1]] at h1
      simp only [Option.some.injEq] at h2
      have := ha k1 p h1; omega
    · rw [show mapSet fs.files key fs.next k1 = fs.files k1 by simp [mapSet, hk1]] at h1
      rw [show mapSet fs.files key fs.next k2 = fs.files k2 by simp [mapSet, hk2]] at h2
      exact he k1 k2 p h1 h2

theorem Owned_delete (fs : FileSystem) (key : String) (h : fs.Owned) :
    FileSystem.Owned { fs with files := mapDelete fs.files key } := by
  obtain ⟨ha, he⟩ := h
  have hsub : ∀ k p, mapDelete fs.files key k = some p → fs.files k = some p := by
    intro k p hk
    by_cases hkk : k = key
    · simp [mapDelete, hkk] at hk
    · simpa [mapDelete, hkk] using hk
  exact ⟨fun k p hk => ha k p (hsub k p hk),
    fun k1 k2 p h1 h2 => he k1 k2 p (hsub k1 p h1) (hsub k2 p h2)⟩

theorem Owned_heap (fs : FileSystem) (heap : Nat → File) (h : fs.Owned) :
    FileSystem.Owned { fs with heap := heap } := h

theorem Owned_move (fs : FileSystem) (src dest : String) (p : Nat) (heap : Nat → File)
    (hs : fs.files src = some p) (h : fs.Owned) :
    FileSystem.Owned
      { files := mapSet (mapDelete fs.files src) dest p, heap := heap, next := fs.next } := by
  obtain ⟨ha, he⟩ := h
  have hother : ∀ k q, k ≠ dest → mapSet (mapDelete fs.files src) dest p k = some q →
      k ≠ src ∧ fs.files k = some q := by
    intro k q hkd hk
    rw [mapSet_other _ _ _ _ hkd] at hk
    by_cases hks : k = src
    · rw [hks, mapDelete_same] at hk; exact absurd hk (by simp)
    · rw [mapDelete_other _ _ _ hks] at hk; exact ⟨hks, hk⟩
  constructor
  · intro k q hk
    dsimp only at hk
    show q < fs.next
    by_cases hkd : k = dest
    · rw [hkd, mapSet_same] at hk
      simp only [Option.some.injEq] at hk
      rw [← hk]; exact ha _ _ hs
    · exact ha k q (hother k q hkd hk).2
  · intro k1 k2 q h1 h2
    dsimp only at h1 h2
    by_cases hk1 : k1 = dest <;> by_cases hk2 : k2 = dest
    · rw [hk1, hk2]
    · rw [hk1, mapSet_same] at h1
      simp only [Option.some.injEq] at h1
      obtain ⟨hne, h2'⟩ := hother k2 q hk2 h2
      rw [← h1] at h2'
      exact absurd (he _ _ _ h2' hs) hne
    · rw [hk2, mapSet_same] at h2
      simp only [Option.some.injEq] at h2
      obtain ⟨hne, h1'⟩ := hother k1 q hk1 h1
      rw [← h2] at h1'
      exact absurd (he _ _ _ h1' hs) hne
    · exact he k1 k2 q (hother k1 q hk1 h1).2 (hother k2 q hk2 h2).2

/-- Every call keeps the objects owned. -/
theorem Owned_apply (fs : FileSystem) (op : Op) (h : fs.Owned) : (fs.apply op).fs.Owned := by
  cases op with
  | create name path contents =>
    simp only [FileSystem.apply]
    cases hs : fs.files (filepathJoin path name) with
    | none => rw [CreateFile_absent _ _ _ _ hs]; exact Owned_fresh _ _ _ h
    | some p => rw [CreateFile_present _ _ _ _ _ hs]; exact h
  | delete name path =>
    simp only [FileSystem.apply]
    cases hs : fs.files (filepathJoin path name) with
    | none => rw [DeleteFile_absent _ _ _ hs]; exact h
    | some p => rw [DeleteFile_present _ _ _ _ hs]; exact Owned_delete _ _ h
  | copy name srcPath destPath =>
    simp only [FileSystem.apply]
    cases hs : fs.files (filepathJoin srcPath name) with
    | none => rw [Copy_absent _ _ _ _ hs]; exact h
    | some p =>
      cases hd : fs.files (filepathJoin destPath name) with
      | some q => rw [Copy_occupied _ _ _ _ _ _ hs hd]; exact h
      | none => rw [Copy_free _ _ _ _ _ hs hd]; exact Owned_fresh _ _ _ h
  | move name srcPath destPath =>
    simp only [FileSystem.apply]
    cases hs : fs.files (filepathJoin srcPath name) with
    | none => rw [MoveFile_absent _ _ _ _ hs]; exact h
    | some p =>
      cases hd : fs.files (filepathJoin destPath name) with
      | some q => rw [MoveFile_occupied _ _ _ _ _ _ hs hd]; exact h
      | none => rw [MoveFile_free _ _ _ _ _ hs hd]; exact Owned_move _ _ _ _ _ hs h
  | save name path contents =>
    simp only [FileSystem.apply]
    cases hs : fs.files (filepathJoin path name) with
    | none => rw [SaveVersion_absent _ _ _ _ hs]; exact h
    | some p => rw [SaveVersion_present _ _ _ _ _ hs]; exact Owned_heap _ _ h
  | switch name path version =>
    simp only [FileSystem.apply]
    cases hs : fs.files (filepathJoin path name) with
    | none => rw [SwitchVersion_absent _ _ _ _ hs]; exact h
    | some p =>
      by_cases hv : version ≤ 0 ∨ version > (fs.heap p).Version
      · rw [SwitchVersion_invalid _ _ _ _ _ hs hv]; exact h
      · rw [SwitchVersion_valid _ _ _ _ _ hs hv]; exact h

/-- Every table reached from an owned one is owned. -/
theorem Owned_run (ops : List Op) (fs : FileSystem) (h : fs.Owned) : (fs.run ops).Owned := by
  induction ops generalizing fs with
  | nil => exact h
  | cons op ops ih => exact ih _ (Owned_apply fs op h)

/-! ### The records after a call -/

theorem record_fresh (fs : FileSystem) (key : String) (f : File) (h : fs.Allocated)
    (k : String) :
    FileSystem.record
      { files := mapSet fs.files key fs.next, heap := store fs.heap fs.next f,
        next := fs.next + 1 } k =
      if k = key then some f else fs.record k := by
  unfold FileSystem.record
  by_cases hk : k = key
  · simp [mapSet, hk, store]
  · simp only [mapSet, hk, if_false]
    cases hp : fs.files k with
    | none => rfl
    | some p =>
      have : p ≠ fs.next := Nat.ne_of_lt (h _ _ hp)
      simp [store, this]

theorem record_delete (fs : FileSystem) (key : String) (k : String) :
    FileSystem.record { fs with files := mapDelete fs.files key } k =
      if k = key then none else fs.record k := by
  unfold FileSystem.record
  by_cases hk : k = key <;> simp [mapDelete, hk]

theorem record_move (fs : FileSystem) (src dest : String) (p : Nat) (f : File)
    (h : fs.Exclusive) (hs : fs.files src = some p) (k : String) :
    FileSystem.record
      { files := mapSet (mapDelete fs.files src) dest p, heap := store fs.heap p f,
        next := fs.next } k =
      if k = dest then some f else if k = src then none else fs.record k := by
  unfold FileSystem.record
  by_cases hk : k = dest
  · simp [mapSet, hk, store]
  · by_cases hk' : k = src
    · simp [mapSet, mapDelete, hk, hk', store]
    · simp only [mapSet, mapDelete, hk, hk', if_false]
      cases hp : fs.files k with
      | none => rfl
      | some q =>
        have : q ≠ p := fun he => hk' (h k src p (he ▸ hp) hs)
        simp [store, this]

theorem record_save (fs : FileSystem) (key : String) (p : Nat) (f : File)
    (h : fs.Exclusive) (hs : fs.files key = some p) (k : String) :
    FileSystem.record { fs with heap := store fs.heap p f } k =
      if k = key then some f else fs.record k := by
  unfold FileSystem.record
  by_cases hk : k = key
  · simp [hk, hs, store]
  · simp only [hk, if_false]
    cases hp : fs.files k with
    | none => rfl
    | some q =>
      have : q ≠ p := fun he => hk (h k key p (he ▸ hp) hs)
      simp [store, this]

/-! ### Keys and records -/

theorem Consistent_New : NewFileSystem.Consistent := by
  refine ⟨Owned_New, ?_, ?_⟩ <;> intro k r h <;> simp [FileSystem.record, NewFileSystem] at h

/-- The record found by a plainly named call has the name of the call. -/
theorem stored_name_eq (fs : FileSystem) (h : fs.Consistent) (name path : String) (p : Nat)
    (hn : plainName name) (hs : fs.files (filepathJoin path name) = some p) :
    (fs.heap p).Name = name := by
  obtain ⟨_, hk, hp⟩ := h
  have hr : fs.record (filepathJoin path name) = some (fs.heap p) := by
    simp [FileSystem.record, hs]
  exact name_eq_of_filepathJoin_eq _ _ _ _ (hp _ _ hr) hn (hk _ _ hr)

/-- A plainly named call keeps the table consistent. -/
theorem Consistent_apply (fs : FileSystem) (op : Op) (h : fs.Consistent)
    (hn : op.plainlyNamed) : (fs.apply op).fs.Consistent := by
  refine ⟨Owned_apply fs op h.1, ?_⟩
  obtain ⟨⟨ha, he⟩, hk, hp⟩ := h
  cases op with
  | create name path contents =>
    simp only [FileSystem.apply]
    cases hs : fs.files (filepathJoin path name) with
    | some p => rw [CreateFile_present _ _ _ _ _ hs]; exact ⟨hk, hp⟩
    | none =>
      rw [CreateFile_absent _ _ _ _ hs]
      constructor
      · intro k r hr
        rw [record_fresh _ _ _ ha] at hr
        split at hr
        · rename_i hkk
          simp only [Option.some.injEq] at hr
          rw [← hr, hkk]
        · exact hk k r hr
      · intro k r hr
        rw [record_fresh _ _ _ ha] at hr
        split at hr
        · simp only [Option.some.injEq] at hr
          rw [← hr]; exact hn
        · exact hp k r hr
  | delete name path =>
    simp only [FileSystem.apply]
    cases hs : fs.files (filepathJoin path name) with
    | none => rw [DeleteFile_absent _ _ _ hs]; exact ⟨hk, hp⟩
    | some p =>
      rw [DeleteFile_present _ _ _ _ hs]
      constructor
      · intro k r hr
        rw [record_delete] at hr
        split at hr
        · exact absurd hr (by simp)
        · exact hk k r hr
      · intro k r hr
        rw [record_delete] at hr
        split at hr
        · exact absurd hr (by simp)
        · exact hp k r hr
  | copy name srcPath destPath =>
    simp only [FileSystem.apply]
    cases hs : fs.files (filepathJoin srcPath name) with
    | none => rw [Copy_absent _ _ _ _ hs]; exact ⟨hk, hp⟩
    | some p =>
      cases hd : fs.files (filepathJoin destPath name) with
      | some q => rw [Copy_occupied _ _ _ _ _ _ hs hd]; exact ⟨hk, hp⟩
      | none =>
        have hname := stored_name_eq fs ⟨⟨ha, he⟩, hk, hp⟩ name srcPath p hn hs
        rw [Copy_free _ _ _ _ _ hs hd]
        constructor
        · intro k r hr
          rw [record_fresh _ _ _ ha] at hr
          split at hr
          · rename_i hkk
            simp only [Option.some.injEq] at hr
            rw [← hr, hkk]
            show filepathJoin destPath (fs.heap p).Name = filepathJoin destPath name
            rw [hname]
          · exact hk k r hr
        · intro k r hr
          rw [record_fresh _ _ _ ha] at hr
          split at hr
          · simp only [Option.some.injEq] at hr
            rw [← hr]
            show plainName (fs.heap p).Name
            rw [hname]; exact hn
          · exact hp k r hr
  | move name srcPath destPath =>
    simp only [FileSystem.apply]
    cases hs : fs.files (filepathJoin srcPath name) with
    | none => rw [MoveFile_absent _ _ _ _ hs]; exact ⟨hk, hp⟩
    | some p =>
      cases hd : fs.files (filepathJoin destPath name) with
      | some q => rw [MoveFile_occupied _ _ _ _ _ _ hs hd]; exact ⟨hk, hp⟩
      | none =>
        have hname := stored_name_eq fs ⟨⟨ha, he⟩, hk, hp⟩ name srcPath p hn hs
        rw [MoveFile_free _ _ _ _ _ hs hd]
        constructor
        · intro k r hr
          rw [record_move _ _ _ _ _ he hs] at hr
          split at hr
          · rename_i hkk
            simp only [Option.some.injEq] at hr
            rw [← hr, hkk]
            show filepathJoin destPath (fs.heap p).Name = filepathJoin destPath name
            rw [hname]
          · split at hr
            · exact absurd hr (by simp)
            · exact hk k r hr
        · intro k r hr
          rw [record_move _ _ _ _ _ he hs] at hr
          split at hr
          · simp only [Option.some.injEq] at hr
            rw [← hr]
            show plainName (fs.heap p).Name
            rw [hname]; exact hn
          · split at hr
            · exact absurd hr (by simp)
            · exact hp k r hr
  | save name path contents =>
    simp only [FileSystem.apply]
    cases hs : fs.files (filepathJoin path name) with
    | none => rw [SaveVersion_absent _ _ _ _ hs]; exact ⟨hk, hp⟩
    | some p =>
      have hr0 : fs.record (filepathJoin path name) = some (fs.heap p) := by
        simp [FileSystem.record, hs]
      rw [SaveVersion_present _ _ _ _ _ hs]
      constructor
      · intro k r hr
        rw [record_save _ _ _ _ he hs] at hr
        split at hr
        · rename_i hkk
          simp only [Option.some.injEq] at hr
          rw [← hr, hkk]
          exact hk _ (fs.heap p) hr0
        · exact hk k r hr
      · intro k r hr
        rw [record_save _ _ _ _ he hs] at hr
        split at hr
        · simp only [Option.some.injEq] at hr
          rw [← hr]
          exact hp _ (fs.heap p) hr0
        · exact hp k r hr
  | switch name path version =>
    simp only [FileSystem.apply]
    cases hs : fs.files (filepathJoin path name) with
    | none => rw [SwitchVersion_absent _ _ _ _ hs]; exact ⟨hk, hp⟩
    | some p =>
      by_cases hv : version ≤ 0 ∨ version > (fs.heap p).Version
      · rw [SwitchVersion_invalid _ _ _ _ _ hs hv]; exact ⟨hk, hp⟩
      · rw [SwitchVersion_valid _ _ _ _ _ hs hv]; exact ⟨hk, hp⟩

/-- Plainly named calls keep the table consistent. -/
theorem Consistent_run (ops : List Op) (fs : FileSystem) (h : fs.Consistent)
    (hn : ∀ op ∈ ops, op.plainlyNamed) : (fs.run ops).Consistent := by
  induction ops generalizing fs with
  | nil => exact h
  | cons op ops ih =>
    exact ih _ (Consistent_apply fs op h (hn op (List.mem_cons_self _ _)))
      (fun o ho => hn o (List.mem_cons_of_mem _ ho))

/-- C9, as stated, fails: after `CreateFile("b", "a", "c")` and
`Copy("a/b", "", "a")` the two distinct keys `a/b` and `a/a/b` both hold a
record with path `a` and name `b`. -/
theorem path_name_twice :
    "a/b" ≠ "a/a/b" ∧
    (NewFileSystem.run slashCopy).record "a/b" =
      some { Name := "b", Path := "a", Contents := "c", Version := 1 } ∧
    (NewFileSystem.run slashCopy).record "a/a/b" =
      some { Name := "b", Path := "a", Contents := "c", Version := 1 } := by
  decide

/-- C9, amended. Uniqueness: after any finite sequence of calls on the empty
table in which every `CreateFile`, `Copy` and `MoveFile` is given a plain file
name (not empty, no separator, neither `.` nor `..`), no two distinct keys hold
records with the same path and name. -/
theorem path_name_unique (ops : List Op) (hn : ∀ op ∈ ops, op.plainlyNamed)
    (k1 k2 : String) (r1 r2 : File)
    (h1 : (NewFileSystem.run ops).record k1 = some r1)
    (h2 : (NewFileSystem.run ops).record k2 = some r2)
    (hp : r1.Path = r2.Path) (hm : r1.Name = r2.Name) : k1 = k2 := by
  have hk := (Consistent_run ops NewFileSystem Consistent_New hn).2.1
  rw [← hk k1 r1 h1, ← hk k2 r2 h2, hp, hm]

/-- C9 amended, on an instance: after a create, a copy and a move of `a.txt`,
a key that holds a record with path `/b` and name `a.txt` is the key
`/b/a.txt`. -/
theorem path_name_unique_witness :
    (∀ op ∈ plainCalls, op.plainlyNamed) ∧
    (NewFileSystem.run plainCalls).record "/b/a.txt" =
      some { Name := "a.txt", Path := "/b", Contents := "v1", Version := 1 } ∧
    (NewFileSystem.run plainCalls).record (filepathJoin "/b" "a.txt") =
      some { Name := "a.txt", Path := "/b", Contents := "v1", Version := 1 } ∧
    "/b/a.txt" = filepathJoin "/b" "a.txt" :=
  ⟨by decide, by decide, by decide,
   path_name_unique plainCalls (by decide) "/b/a.txt" (filepathJoin "/b" "a.txt")
     { Name := "a.txt", Path := "/b", Contents := "v1", Version := 1 }
     { Name := "a.txt", Path := "/b", Contents := "v1", Version := 1 }
     (by decide) (by decide) rfl rfl⟩

/-- C10, as stated, fails: after `CreateFile("b", "a", "c")` and
`MoveFile("a/b", "", "x")` the key `x/a/b` holds a record with path `x` and
name `b`, whose join is `x/b`. -/
theorem key_not_join :
    (NewFileSystem.run slashMove).record "x/a/b" =
      some { Name := "b", Path := "x", Contents := "c", Version := 1 } ∧
    filepathJoin "x" "b" ≠ "x/a/b" := by
  decide

/-- C10, amended. Key and record agree: in every table reached from the empty
table by a sequence of calls in which every `CreateFile`, `Copy` and `MoveFile`
is given a plain file name (not empty, no separator, neither `.` nor `..`),
every key `k` holds a record `r` with `filepath.Join(r.Path, r.Name) = k`. -/
theorem key_is_join (ops : List Op) (hn : ∀ op ∈ ops, op.plainlyNamed)
    (k : String) (r : File) (h : (NewFileSystem.run ops).record k = some r) :
    filepathJoin r.Path r.Name = k :=
  (Consistent_run ops NewFileSystem Consistent_New hn).2.1 k r h

/-- C10 amended, on an instance: after a create, a copy and a move of `a.txt`,
the record under `/e/a.txt` has path `/e` and name `a.txt`. -/
theorem key_is_join_witness :
    (∀ op ∈ plainCalls, op.plainlyNamed) ∧
    (NewFileSystem.run plainCalls).record "/e/a.txt" =
      some { Name := "a.txt", Path := "/e", Contents := "v1", Version := 1 } ∧
    filepathJoin "/e" "a.txt" = "/e/a.txt" :=
  ⟨by decide, by decide,
   key_is_join plainCalls (by decide) "/e/a.txt"
     { Name := "a.txt", Path := "/e", Contents := "v1", Version := 1 } (by decide)⟩

/-! ### Reports and precedence -/

theorem SwitchVersion_fs (fs : FileSystem) (name path : String) (version : Int) :
    (fs.SwitchVersion name path version).fs = fs := by
  cases hs : fs.files (filepathJoin path name) with
  | none => rw [SwitchVersion_absent _ _ _ _ hs]
  | some p =>
    by_cases hv : version ≤ 0 ∨ version > (fs.heap p).Version
    · rw [SwitchVersion_invalid _ _ _ _ _ hs hv]
    · rw [SwitchVersion_valid _ _ _ _ _ hs hv]

theorem SwitchVersion_out (fs : FileSystem) (name path : String) (v : Int) (r : File)
    (hr : fs.record (filepathJoin path name) = some r) (h1 : 1 ≤ v) (h2 : v ≤ r.Version) :
    (fs.SwitchVersion name path v).err = none ∧
    (fs.SwitchVersion name path v).out = switchReport name v r.Contents := by
  cases hs : fs.files (filepathJoin path name) with
  | none => simp [FileSystem.record, hs] at hr
  | some p =>
    simp only [FileSystem.record, hs, Option.map_some', Option.some.injEq] at hr
    subst hr
    have hv : ¬ (v ≤ 0 ∨ v > (fs.heap p).Version) := by omega
    rw [SwitchVersion_valid _ _ _ _ _ hs hv]
    exact ⟨rfl, rfl⟩

/-- C11. SwitchVersion report: when the key `join(path, name)` is present with
version `V` and contents `C`, a `SwitchVersion(name, path, v)` with
`1 <= v <= V` succeeds and prints the text that names `v` and carries `C`; a
second valid version `w` gives the text with `w` and the same contents `C`. -/
theorem SwitchVersion_report (fs : FileSystem) (name path : String) (v w : Int) (r : File)
    (hr : fs.record (filepathJoin path name) = some r)
    (hv1 : 1 ≤ v) (hv2 : v ≤ r.Version) (hw1 : 1 ≤ w) (hw2 : w ≤ r.Version) :
    (fs.SwitchVersion name path v).succeeds ∧
    (fs.SwitchVersion name path v).out =
      "Old version of " ++ name ++ " (Version " ++ toString v ++ "):\n" ++ r.Contents ++ "\n" ∧
    (fs.SwitchVersion name path w).succeeds ∧
    (fs.SwitchVersion name path w).out =
      "Old version of " ++ name ++ " (Version " ++ toString w ++ "):\n" ++ r.Contents ++ "\n" :=
  ⟨(SwitchVersion_out fs name path v r hr hv1 hv2).1,
   (SwitchVersion_out fs name path v r hr hv1 hv2).2,
   (SwitchVersion_out fs name path w r hr hw1 hw2).1,
   (SwitchVersion_out fs name path w r hr hw1 hw2).2⟩

/-- C11, on an instance: after one save, `/d/a.txt` is at version 2 with
contents `v2`, and the reports for versions 1 and 2 both carry `v2`. -/
theorem SwitchVersion_report_witness :
    (oneFile.SaveVersion "a.txt" "/d" "v2").fs.record (filepathJoin "/d" "a.txt") =
      some { Name := "a.txt", Path := "/d", Contents := "v2", Version := 2 } ∧
    ((oneFile.SaveVersion "a.txt" "/d" "v2").fs.SwitchVersion "a.txt" "/d" 1).out =
      "Old version of " ++ "a.txt" ++ " (Version " ++ toString (1 : Int) ++ "):\n" ++ "v2" ++ "\n" ∧
    ((oneFile.SaveVersion "a.txt" "/d" "v2").fs.SwitchVersion "a.txt" "/d" 2).out =
      "Old version of " ++ "a.txt" ++ " (Version " ++ toString (2 : Int) ++ "):\n" ++ "v2" ++ "\n" :=
  ⟨by decide,
   (SwitchVersion_report (oneFile.SaveVersion "a.txt" "/d" "v2").fs "a.txt" "/d" 1 2
      { Name := "a.txt", Path := "/d", Contents := "v2", Version := 2 }
      (by decide) (by decide) (by decide) (by decide) (by decide)).2.1,
   (SwitchVersion_report (oneFile.SaveVersion "a.txt" "/d" "v2").fs "a.txt" "/d" 1 2
      { Name := "a.txt", Path := "/d", Contents := "v2", Version := 2 }
      (by decide) (by decide) (by decide) (by decide) (by decide)).2.2.2⟩

/-- C12. `SwitchVersion` performs no mutation: whether the call succeeds or
fails, the file system after `SwitchVersion(name, path, version)` is the file
system before it (the same map and the same objects). -/
theorem SwitchVersion_no_mutation (fs : FileSystem) (name path : String) (version : Int) :
    (fs.SwitchVersion name path version).fs = fs :=
  SwitchVersion_fs fs name path version

/-- C18. Error precedence: when the source key is absent, `Copy` and `MoveFile`
fail with NotFound whatever the destination key holds, and when the key is
absent `SwitchVersion` fails with NotFound whatever the requested version. -/
theorem NotFound_first (fs : FileSystem) (name srcPath destPath : String) (version : Int)
    (h : ¬ fs.present (filepathJoin srcPath name)) :
    (fs.Copy name srcPath destPath).failsWith .NotFound ∧
    (fs.MoveFile name srcPath destPath).failsWith .NotFound ∧
    (fs.SwitchVersion name srcPath version).failsWith .NotFound := by
  have hs : fs.files (filepathJoin srcPath name) = none := by
    unfold FileSystem.present at h
    exact not_not.mp h
  rw [Copy_absent _ _ _ _ hs, MoveFile_absent _ _ _ _ hs, SwitchVersion_absent _ _ _ _ hs]
  exact ⟨rfl, rfl, rfl⟩

/-- C18, on an instance: in the one-file table, with `/x/a.txt` absent and the
destination `/d/a.txt` occupied, copy and move fail with NotFound, and so does
a switch to version 0. -/
theorem NotFound_first_witness :
    ¬ oneFile.present (filepathJoin "/x" "a.txt") ∧
    oneFile.present (filepathJoin "/d" "a.txt") ∧
    (oneFile.Copy "a.txt" "/x" "/d").failsWith .NotFound ∧
    (oneFile.MoveFile "a.txt" "/x" "/d").failsWith .NotFound ∧
    (oneFile.SwitchVersion "a.txt" "/x" 0).failsWith .NotFound :=
  ⟨by decide, by decide, NotFound_first oneFile "a.txt" "/x" "/d" 0 (by decide)⟩

/-- C19. Self-targeting copy and move: when the key `join(srcPath, name)` is
present and `join(destPath, name)` is the same key, `Copy` and `MoveFile` both
fail with AlreadyExists and leave the file system as it was. -/
theorem self_target_fails (fs : FileSystem) (name srcPath destPath : String)
    (hp : fs.present (filepathJoin srcPath name))
    (hk : filepathJoin destPath name = filepathJoin srcPath name) :
    (fs.Copy name srcPath destPath).failsWith .AlreadyExists ∧
    (fs.Copy name srcPath destPath).fs = fs ∧
    (fs.MoveFile name srcPath destPath).failsWith .AlreadyExists ∧
    (fs.MoveFile name srcPath destPath).fs = fs := by
  unfold FileSystem.present at hp
  cases hs : fs.files (filepathJoin srcPath name) with
  | none => exact absurd hs hp
  | some p =>
    have hd : fs.files (filepathJoin destPath name) = some p := by rw [hk, hs]
    rw [Copy_occupied _ _ _ _ _ _ hs hd, MoveFile_occupied _ _ _ _ _ _ hs hd]
    exact ⟨rfl, rfl, rfl, rfl⟩

/-- C19, on an instance: copying or moving `/d/a.txt` to `/d/` (another
spelling of the same directory) fails with AlreadyExists and changes nothing. -/
theorem self_target_fails_witness :
    oneFile.present (filepathJoin "/d" "a.txt") ∧
    filepathJoin "/d/" "a.txt" = filepathJoin "/d" "a.txt" ∧
    (oneFile.Copy "a.txt" "/d" "/d/").failsWith .AlreadyExists ∧
    (oneFile.Copy "a.txt" "/d" "/d/").fs = oneFile ∧
    (oneFile.MoveFile "a.txt" "/d" "/d/").failsWith .AlreadyExists ∧
    (oneFile.MoveFile "a.txt" "/d" "/d/").fs = oneFile :=
  ⟨by decide, by decide, self_target_fails oneFile "a.txt" "/d" "/d/" (by decide) (by decide)⟩

/-! ### Absent keys -/

theorem Owned_oneFile : oneFile.Owned := Owned_apply NewFileSystem (.create "a.txt" "/d" "v1") Owned_New

theorem Owned_twoFiles : twoFiles.Owned := Owned_apply oneFile (.create "a.txt" "/b" "w1") Owned_oneFile

/-- A call that does not add the key leaves an absent key absent. -/
theorem absent_apply (fs : FileSystem) (op : Op) (key : String)
    (h : fs.files key = none) (ht : op.target ≠ some key) :
    (fs.apply op).fs.files key = none := by
  cases op with
  | create name path contents =>
    have hne : key ≠ filepathJoin path name := fun he => ht (by simp [Op.target, he])
    simp only [FileSystem.apply]
    cases hs : fs.files (filepathJoin path name) with
    | none => rw [CreateFile_absent _ _ _ _ hs]; simp [mapSet, hne, h]
    | some p => rw [CreateFile_present _ _ _ _ _ hs]; exact h
  | delete name path =>
    simp only [FileSystem.apply]
    cases hs : fs.files (filepathJoin path name) with
    | none => rw [DeleteFile_absent _ _ _ hs]; exact h
    | some p => rw [DeleteFile_present _ _ _ _ hs]; simp [mapDelete, h]
  | copy name srcPath destPath =>
    have hne : key ≠ filepathJoin destPath name := fun he => ht (by simp [Op.target, he])
    simp only [FileSystem.apply]
    cases hs : fs.files (filepathJoin srcPath name) with
    | none => rw [Copy_absent _ _ _ _ hs]; exact h
    | some p =>
      cases hd : fs.files (filepathJoin destPath name) with
      | some q => rw [Copy_occupied _ _ _ _ _ _ hs hd]; exact h
      | none => rw [Copy_free _ _ _ _ _ hs hd]; simp [mapSet, hne, h]
  | move name srcPath destPath =>
    have hne : key ≠ filepathJoin destPath name := fun he => ht (by simp [Op.target, he])
    simp only [FileSystem.apply]
    cases hs : fs.files (filepathJoin srcPath name) with
    | none => rw [MoveFile_absent _ _ _ _ hs]; exact h
    | some p =>
      cases hd : fs.files (filepathJoin destPath name) with
      | some q => rw [MoveFile_occupied _ _ _ _ _ _ hs hd]; exact h
      | none => rw [MoveFile_free _ _ _ _ _ hs hd]; simp [mapSet, mapDelete, hne, h]
  | save name path contents =>
    simp only [FileSystem.apply]
    cases hs : fs.files (filepathJoin path name) with
    | none => rw [SaveVersion_absent _ _ _ _ hs]; exact h
    | some p => rw [SaveVersion_present _ _ _ _ _ hs]; exact h
  | switch name path version =>
    simp only [FileSystem.apply]
    rw [SwitchVersion_fs]; exact h

theorem absent_run (ops : List Op) (fs : FileSystem) (key : String)
    (h : fs.files key = none) (ht : ∀ o ∈ ops, o.target ≠ some key) :
    (fs.run ops).files key = none := by
  induction ops generalizing fs with
  | nil => exact h
  | cons op ops ih =>
    exact ih _ (absent_apply fs op key h (ht op (List.mem_cons_self _ _)))
      (fun o ho => ht o (List.mem_cons_of_mem _ ho))

/-- A call that works on an absent key fails with NotFound. -/
theorem NotFound_of_absent (fs : FileSystem) (op : Op) (key : String)
    (h : fs.files key = none) (hs : op.subject = some key) :
    (fs.apply op).failsWith .NotFound := by
  cases op with
  | create name path contents => simp [Op.subject] at hs
  | delete name path =>
    simp only [Op.subject, Option.some.injEq] at hs
    rw [← hs] at h
    simp only [FileSystem.apply]; rw [DeleteFile_absent _ _ _ h]; rfl
  | copy name srcPath destPath =>
    simp only [Op.subject, Option.some.injEq] at hs
    rw [← hs] at h
    simp only [FileSystem.apply]; rw [Copy_absent _ _ _ _ h]; rfl
  | move name srcPath destPath =>
    simp only [Op.subject, Option.some.injEq] at hs
    rw [← hs] at h
    simp only [FileSystem.apply]; rw [MoveFile_absent _ _ _ _ h]; rfl
  | save name path contents =>
    simp only [Op.subject, Option.some.injEq] at hs
    rw [← hs] at h
    simp only [FileSystem.apply]; rw [SaveVersion_absent _ _ _ _ h]; rfl
  | switch name path version =>
    simp only [Op.subject, Option.some.injEq] at hs
    rw [← hs] at h
    simp only [FileSystem.apply]; rw [SwitchVersion_absent _ _ _ _ h]; rfl

theorem absent_after_delete (fs : FileSystem) (name path : String)
    (h : (fs.DeleteFile name path).succeeds) :
    (fs.DeleteFile name path).fs.files (filepathJoin path name) = none := by
  revert h
  unfold Outcome.succeeds
  cases hs : fs.files (filepathJoin path name) with
  | none => simp [DeleteFile_absent _ _ _ hs]
  | some p => simp [DeleteFile_present _ _ _ _ hs, mapDelete]

/-- C13, as stated, fails: after `DeleteFile("a.txt", "/d")` succeeds on the
two-file table, the sequence `Copy("a.txt", "/b", "/d")` contains no
`CreateFile`, and yet `SaveVersion("a.txt", "/d", "x")` after it succeeds
instead of failing with NotFound. -/
theorem key_back_without_create :
    (twoFiles.DeleteFile "a.txt" "/d").succeeds ∧
    (∀ o ∈ [Op.copy "a.txt" "/b" "/d"], ¬ o.createsKey (filepathJoin "/d" "a.txt")) ∧
    (Op.save "a.txt" "/d" "x").subject = some (filepathJoin "/d" "a.txt") ∧
    ((((twoFiles.DeleteFile "a.txt" "/d").fs.run [Op.copy "a.txt" "/b" "/d"]).apply
        (Op.save "a.txt" "/d" "x")).succeeds) ∧
    ¬ ((((twoFiles.DeleteFile "a.txt" "/d").fs.run [Op.copy "a.txt" "/b" "/d"]).apply
        (Op.save "a.txt" "/d" "x")).failsWith .NotFound) := by
  decide

/-- C13, amended. Delete-then-absent: after a successful
`DeleteFile(name, path)`, for every subsequent sequence of calls that contains
no `CreateFile` for the key `join(path, name)` and no `Copy` or `MoveFile` with
that key as destination, a following `DeleteFile`, `Copy`, `MoveFile`,
`SaveVersion` or `SwitchVersion` that works on that key as its (source) file
fails with NotFound. -/
theorem NotFound_after_delete (fs : FileSystem) (name path : String) (ops : List Op) (op : Op)
    (hd : (fs.DeleteFile name path).succeeds)
    (hno : ∀ o ∈ ops, o.target ≠ some (filepathJoin path name))
    (hop : op.subject = some (filepathJoin path name)) :
    (((fs.DeleteFile name path).fs.run ops).apply op).failsWith .NotFound :=
  NotFound_of_absent _ op _
    (absent_run ops _ _ (absent_after_delete fs name path hd) hno) hop

/-- C13 amended, on an instance: after `/d/a.txt` is deleted from the two-file
table, a save and a copy elsewhere do not bring it back, and a further
`MoveFile` of `/d/a.txt` fails with NotFound. -/
theorem NotFound_after_delete_witness :
    (twoFiles.DeleteFile "a.txt" "/d").succeeds ∧
    (∀ o ∈ [Op.save "a.txt" "/b" "w2", Op.copy "a.txt" "/b" "/c"],
      o.target ≠ some (filepathJoin "/d" "a.txt")) ∧
    (Op.move "a.txt" "/d" "/e").subject = some (filepathJoin "/d" "a.txt") ∧
    (((twoFiles.DeleteFile "a.txt" "/d").fs.run
        [Op.save "a.txt" "/b" "w2", Op.copy "a.txt" "/b" "/c"]).apply
      (Op.move "a.txt" "/d" "/e")).failsWith .NotFound :=
  ⟨by decide, by decide, by decide,
   NotFound_after_delete twoFiles "a.txt" "/d"
     [Op.save "a.txt" "/b" "w2", Op.copy "a.txt" "/b" "/c"] (Op.move "a.txt" "/d" "/e")
     (by decide) (by decide) (by decide)⟩

/-! ### Frame of a call -/

theorem present_iff_record (fs : FileSystem) (k : String) :
    fs.present k ↔ fs.record k ≠ none := by
  unfold FileSystem.present FileSystem.record
  cases fs.files k <;> simp

/-- A call leaves the record of every key that is not one of its own keys as
it was. -/
theorem record_apply_other (fs : FileSystem) (op : Op) (k : String) (h : fs.Owned)
    (hk : k ∉ op.ownKeys) : (fs.apply op).fs.record k = fs.record k := by
  obtain ⟨ha, he⟩ := h
  cases op with
  | create name path contents =>
    have hne : k ≠ filepathJoin path name := by simpa [Op.ownKeys] using hk
    simp only [FileSystem.apply]
    cases hs : fs.files (filepathJoin path name) with
    | none => rw [CreateFile_absent _ _ _ _ hs, record_fresh _ _ _ ha, if_neg hne]
    | some p => rw [CreateFile_present _ _ _ _ _ hs]
  | delete name path =>
    have hne : k ≠ filepathJoin path name := by simpa [Op.ownKeys] using hk
    simp only [FileSystem.apply]
    cases hs : fs.files (filepathJoin path name) with
    | none => rw [DeleteFile_absent _ _ _ hs]
    | some p => rw [DeleteFile_present _ _ _ _ hs, record_delete, if_neg hne]
  | copy name srcPath destPath =>
    have hne : k ≠ filepathJoin destPath name := by simpa [Op.ownKeys] using hk
    simp only [FileSystem.apply]
    cases hs : fs.files (filepathJoin srcPath name) with
    | none => rw [Copy_absent _ _ _ _ hs]
    | some p =>
      cases hd : fs.files (filepathJoin destPath name) with
      | some q => rw [Copy_occupied _ _ _ _ _ _ hs hd]
      | none => rw [Copy_free _ _ _ _ _ hs hd, record_fresh _ _ _ ha, if_neg hne]
  | move name srcPath destPath =>
    have hne : k ≠ filepathJoin srcPath name ∧ k ≠ filepathJoin destPath name := by
      simpa [Op.ownKeys] using hk
    simp only [FileSystem.apply]
    cases hs : fs.files (filepathJoin srcPath name) with
    | none => rw [MoveFile_absent _ _ _ _ hs]
    | some p =>
      cases hd : fs.files (filepathJoin destPath name) with
      | some q => rw [MoveFile_occupied _ _ _ _ _ _ hs hd]
      | none =>
        rw [MoveFile_free _ _ _ _ _ hs hd, record_move _ _ _ _ _ he hs, if_neg hne.2,
          if_neg hne.1]
  | save name path contents =>
    have hne : k ≠ filepathJoin path name := by simpa [Op.ownKeys] using hk
    simp only [FileSystem.apply]
    cases hs : fs.files (filepathJoin path name) with
    | none => rw [SaveVersion_absent _ _ _ _ hs]
    | some p => rw [SaveVersion_present _ _ _ _ _ hs, record_save _ _ _ _ he hs, if_neg hne]
  | switch name path version =>
    simp only [FileSystem.apply]
    rw [SwitchVersion_fs]

/-- C16. No side effects beyond the stated mutation: after a successful call,
every key other than the call's own keys (the created key for `CreateFile`, the
deleted key for `DeleteFile`, the destination key for `Copy`, the source and
destination keys for `MoveFile`, the saved key for `SaveVersion`) is present
exactly when it was present before, and leads to the same record, all four
fields. (`Owned`: every key of the table has its own `File` object, as in every
table the methods build.) -/
theorem other_keys_untouched (fs : FileSystem) (op : Op) (k : String) (h : fs.Owned)
    (_hs : (fs.apply op).succeeds) (hk : k ∉ op.ownKeys) :
    ((fs.apply op).fs.present k ↔ fs.present k) ∧
    (fs.apply op).fs.record k = fs.record k := by
  have hr := record_apply_other fs op k h hk
  refine ⟨?_, hr⟩
  rw [present_iff_record, present_iff_record, hr]

/-- C16, on an instance: saving `/d/a.txt` in the two-file table leaves
`/b/a.txt` as it was. -/
theorem other_keys_untouched_witness :
    twoFiles.Owned ∧ (twoFiles.apply (.save "a.txt" "/d" "v2")).succeeds ∧
    "/b/a.txt" ∉ (Op.save "a.txt" "/d" "v2").ownKeys ∧
    (twoFiles.apply (.save "a.txt" "/d" "v2")).fs.record "/b/a.txt" =
      twoFiles.record "/b/a.txt" :=
  ⟨Owned_twoFiles, by decide, by decide,
   (other_keys_untouched twoFiles (.save "a.txt" "/d" "v2") "/b/a.txt" Owned_twoFiles
      (by decide) (by decide)).2⟩

/-- C20. Move agrees with copy-then-delete: when `MoveFile(name, srcPath,
destPath)` succeeds, `Copy(name, srcPath, destPath)` succeeds from the same
table, `DeleteFile(name, srcPath)` succeeds after it, and the table they leave
has the same keys and the same records (all four fields) as the table
`MoveFile` leaves. (`Owned`: every key of the table has its own `File` object,
as in every table the methods build.) -/
theorem MoveFile_eq_Copy_DeleteFile (fs : FileSystem) (name srcPath destPath : String)
    (h : fs.Owned) (hm : (fs.MoveFile name srcPath destPath).succeeds) :
    (fs.Copy name srcPath destPath).succeeds ∧
    ((fs.Copy name srcPath destPath).fs.DeleteFile name srcPath).succeeds ∧
    (fs.MoveFile name srcPath destPath).fs.record =
      ((fs.Copy name srcPath destPath).fs.DeleteFile name srcPath).fs.record := by
  obtain ⟨ha, he⟩ := h
  revert hm
  unfold Outcome.succeeds
  cases hs : fs.files (filepathJoin srcPath name) with
  | none => simp [MoveFile_absent _ _ _ _ hs]
  | some p =>
    cases hd : fs.files (filepathJoin destPath name) with
    | some q => simp [MoveFile_occupied _ _ _ _ _ _ hs hd]
    | none =>
      intro _
      have hne := ne_of_some_none _ _ _ _ hs hd
      rw [Copy_free _ _ _ _ _ hs hd, MoveFile_free _ _ _ _ _ hs hd]
      have hsrc : mapSet fs.files (filepathJoin destPath name) fs.next
          (filepathJoin srcPath name) = some p := by
        rw [mapSet_other _ _ _ _ hne, hs]
      rw [DeleteFile_present _ _ _ _ hsrc]
      refine ⟨rfl, rfl, ?_⟩
      funext k
      rw [record_move _ _ _ _ _ he hs, record_delete, record_fresh _ _ _ ha]
      by_cases hk : k = filepathJoin srcPath name
      · have hk' : k ≠ filepathJoin destPath name := fun e => hne (hk.symm.trans e)
        rw [if_neg hk', if_pos hk, if_pos hk]
      · rw [if_neg hk, if_neg hk]

/-- C20, on an instance: moving `/d/a.txt` to `/e` in the two-file table leaves
the records that copying it to `/e` and deleting `/d/a.txt` leaves. -/
theorem MoveFile_eq_Copy_DeleteFile_witness :
    twoFiles.Owned ∧ (twoFiles.MoveFile "a.txt" "/d" "/e").succeeds ∧
    (twoFiles.Copy "a.txt" "/d" "/e").succeeds ∧
    ((twoFiles.Copy "a.txt" "/d" "/e").fs.DeleteFile "a.txt" "/d").succeeds ∧
    (twoFiles.MoveFile "a.txt" "/d" "/e").fs.record =
      ((twoFiles.Copy "a.txt" "/d" "/e").fs.DeleteFile "a.txt" "/d").fs.record :=
  ⟨Owned_twoFiles, by decide,
   MoveFile_eq_Copy_DeleteFile twoFiles "a.txt" "/d" "/e" Owned_twoFiles (by decide)⟩

/-! ### Versions -/

theorem Owned_fullVersion : fullVersion.Owned := by
  have hk : ∀ k p, fullVersion.files k = some p → k = "/d/a.txt" ∧ p = 0 := by
    intro k p h
    by_cases hkk : k = "/d/a.txt"
    · simp [fullVersion, mapSet, hkk] at h
      exact ⟨hkk, h.symm⟩
    · simp [fullVersion, mapSet, hkk] at h
  constructor
  · intro k p h
    have := (hk k p h).2
    show p < 1
    omega
  · intro k1 k2 p h1 h2
    rw [(hk k1 p h1).1, (hk k2 p h2).1]

theorem record_fullVersion_save :
    (fullVersion.SaveVersion "a.txt" "/d" "v2").fs.record (filepathJoin "/d" "a.txt") =
      some { Name := "a.txt", Path := "/d", Contents := "v2", Version := minInt } := by
  have hk : fullVersion.files (filepathJoin "/d" "a.txt") = some 0 := by decide
  rw [SaveVersion_present _ _ _ _ _ hk]
  simp only [FileSystem.record, hk, Option.map_some', store_same]
  show some ({ Name := "a.txt", Path := "/d", Contents := "v2",
               Version := wrapInt (maxInt + 1) } : File) = _
  rw [wrapInt_maxInt]

/-- C15, as stated, fails: `SaveVersion` on a file at the largest Go `int`
keeps the key present and takes its version from `2^63 - 1` down to `-2^63`. -/
theorem version_drops :
    fullVersion.Owned ∧
    fullVersion.record (filepathJoin "/d" "a.txt") =
      some { Name := "a.txt", Path := "/d", Contents := "v1", Version := maxInt } ∧
    (fullVersion.apply (.save "a.txt" "/d" "v2")).fs.record (filepathJoin "/d" "a.txt") =
      some { Name := "a.txt", Path := "/d", Contents := "v2", Version := minInt } ∧
    minInt < maxInt :=
  ⟨Owned_fullVersion, by decide, record_fullVersion_save, by decide⟩

/-- The version of a record that stays is kept by every call, except that
`SaveVersion` on its key replaces it by the wrapped successor. -/
theorem version_apply (fs : FileSystem) (op : Op) (k : String) (r r' : File) (h : fs.Owned)
    (hr : fs.record k = some r) (hr' : (fs.apply op).fs.record k = some r') :
    r'.Version = r.Version ∨ r'.Version = wrapInt (r.Version + 1) := by
  obtain ⟨ha, he⟩ := h
  have hfk : fs.files k ≠ none := by
    intro hn; simp [FileSystem.record, hn] at hr
  cases op with
  | create name path contents =>
    simp only [FileSystem.apply] at hr'
    cases hs : fs.files (filepathJoin path name) with
    | none =>
      have hne : k ≠ filepathJoin path name := fun e => hfk (e ▸ hs)
      rw [CreateFile_absent _ _ _ _ hs, record_fresh _ _ _ ha, if_neg hne, hr] at hr'
      simp only [Option.some.injEq] at hr'
      exact Or.inl (by rw [hr'])
    | some p =>
      rw [CreateFile_present _ _ _ _ _ hs, hr] at hr'
      simp only [Option.some.injEq] at hr'
      exact Or.inl (by rw [hr'])
  | delete name path =>
    simp only [FileSystem.apply] at hr'
    cases hs : fs.files (filepathJoin path name) with
    | none =>
      rw [DeleteFile_absent _ _ _ hs, hr] at hr'
      simp only [Option.some.injEq] at hr'
      exact Or.inl (by rw [hr'])
    | some p =>
      rw [DeleteFile_present _ _ _ _ hs, record_delete] at hr'
      split at hr'
      · exact absurd hr' (by simp)
      · rw [hr] at hr'
        simp only [Option.some.injEq] at hr'
        exact Or.inl (by rw [hr'])
  | copy name srcPath destPath =>
    simp only [FileSystem.apply] at hr'
    cases hs : fs.files (filepathJoin srcPath name) with
    | none =>
      rw [Copy_absent _ _ _ _ hs, hr] at hr'
      simp only [Option.some.injEq] at hr'
      exact Or.inl (by rw [hr'])
    | some p =>
      cases hd : fs.files (filepathJoin destPath name) with
      | some q =>
        rw [Copy_occupied _ _ _ _ _ _ hs hd, hr] at hr'
        simp only [Option.some.injEq] at hr'
        exact Or.inl (by rw [hr'])
      | none =>
        have hne : k ≠ filepathJoin destPath name := fun e => hfk (e ▸ hd)
        rw [Copy_free _ _ _ _ _ hs hd, record_fresh _ _ _ ha, if_neg hne, hr] at hr'
        simp only [Option.some.injEq] at hr'
        exact Or.inl (by rw [hr'])
  | move name srcPath destPath =>
    simp only [FileSystem.apply] at hr'
    cases hs : fs.files (filepathJoin srcPath name) with
    | none =>
      rw [MoveFile_absent _ _ _ _ hs, hr] at hr'
      simp only [Option.some.injEq] at hr'
      exact Or.inl (by rw [hr'])
    | some p =>
      cases hd : fs.files (filepathJoin destPath name) with
      | some q =>
        rw [MoveFile_occupied _ _ _ _ _ _ hs hd, hr] at hr'
        simp only [Option.some.injEq] at hr'
        exact Or.inl (by rw [hr'])
      | none =>
        have hne : k ≠ filepathJoin destPath name := fun e => hfk (e ▸ hd)
        rw [MoveFile_free _ _ _ _ _ hs hd, record_move _ _ _ _ _ he hs, if_neg hne] at hr'
        split at hr'
        · exact absurd hr' (by simp)
        · rw [hr] at hr'
          simp only [Option.some.injEq] at hr'
          exact Or.inl (by rw [hr'])
  | save name path contents =>
    simp only [FileSystem.apply] at hr'
    cases hs : fs.files (filepathJoin path name) with
    | none =>
      rw [SaveVersion_absent _ _ _ _ hs, hr] at hr'
      simp only [Option.some.injEq] at hr'
      exact Or.inl (by rw [hr'])
    | some p =>
      rw [SaveVersion_present _ _ _ _ _ hs, record_save _ _ _ _ he hs] at hr'
      split at hr'
      · rename_i hkk
        have hrp : r = fs.heap p := by
          rw [hkk] at hr
          simp only [FileSystem.record, hs, Option.map_some', Option.some.injEq] at hr
          exact hr.symm
        simp only [Option.some.injEq] at hr'
        right
        rw [← hr', hrp]
      · rw [hr] at hr'
        simp only [Option.some.injEq] at hr'
        exact Or.inl (by rw [hr'])
  | switch name path version =>
    simp only [FileSystem.apply] at hr'
    rw [SwitchVersion_fs, hr] at hr'
    simp only [Option.some.injEq] at hr'
    exact Or.inl (by rw [hr'])

/-- C15, amended. Version monotonicity: for every table, every single call and
every key present both before and after the call whose version before is a Go
`int` below the largest one (`2^63 - 1`), the version after the call is greater
than or equal to the version before. (`Owned`: every key of the table has its
own `File` object, as in every table the methods build.) -/
theorem version_monotone (fs : FileSystem) (op : Op) (k : String) (r r' : File)
    (h : fs.Owned) (hr : fs.record k = some r) (hr' : (fs.apply op).fs.record k = some r')
    (h0 : minInt ≤ r.Version) (h1 : r.Version < maxInt) : r.Version ≤ r'.Version := by
  rcases version_apply fs op k r r' h hr hr' with hv | hv
  · rw [hv]
  · rw [hv, wrapInt_of_lt _ h0 h1]; omega

/-- C15 amended, on an instance: saving `/d/a.txt` in the one-file table takes
its version from 1 to 2. -/
theorem version_monotone_witness :
    oneFile.Owned ∧
    oneFile.record "/d/a.txt" =
      some { Name := "a.txt", Path := "/d", Contents := "v1", Version := 1 } ∧
    (oneFile.apply (.save "a.txt" "/d" "v2")).fs.record "/d/a.txt" =
      some { Name := "a.txt", Path := "/d", Contents := "v2", Version := 2 } ∧
    (1 : Int) ≤ 2 :=
  ⟨Owned_oneFile, by decide, by decide,
   version_monotone oneFile (.save "a.txt" "/d" "v2") "/d/a.txt"
     { Name := "a.txt", Path := "/d", Contents := "v1", Version := 1 }
     { Name := "a.txt", Path := "/d", Contents := "v2", Version := 2 }
     Owned_oneFile (by decide) (by decide) (by decide) (by decide)⟩


theorem run_append (a b : List Op) (fs : FileSystem) :
    fs.run (a ++ b) = (fs.run a).run b := by
  induction a generalizing fs with
  | nil => rfl
  | cons op ops ih => exact ih _

theorem saveCalls_succ (n : Nat) :
    saveCalls (n + 1) = saveCalls n ++ [.save "a.txt" "/d" "v2"] := by
  unfold saveCalls
  rw [List.replicate_succ', List.cons_append]

/-- After `CreateFile` and `n` saves, with `n + 1` still a Go `int`, the file
is at version `n + 1`. -/
theorem saveCalls_version (n : Nat) (h : (n : Int) + 1 ≤ maxInt) :
    (NewFileSystem.run (saveCalls n)).files (filepathJoin "/d" "a.txt") = some 0 ∧
    ((NewFileSystem.run (saveCalls n)).heap 0).Version = (n : Int) + 1 := by
  induction n with
  | zero => exact ⟨by decide, by decide⟩
  | succ n ih =>
    obtain ⟨hf, hv⟩ := ih (by push_cast at h; omega)
    rw [saveCalls_succ, run_append]
    generalize NewFileSystem.run (saveCalls n) = fs at hf hv
    simp only [FileSystem.apply, FileSystem.run]
    rw [SaveVersion_present _ _ _ _ _ hf]
    refine ⟨hf, ?_⟩
    simp only [store_same]
    rw [hv, wrapInt_of_lt _ (by unfold minInt; omega) (by push_cast at h; omega)]
    push_cast
    ring

/-- After `CreateFile` and as many saves as the largest Go `int`, the version
has wrapped to the smallest Go `int`. -/
theorem saveCalls_wrap (n : Nat) (h : (n : Int) = maxInt) :
    ((NewFileSystem.run (saveCalls n)).record (filepathJoin "/d" "a.txt")).map
        File.Version = some minInt := by
  cases n with
  | zero => exact absurd h (by decide)
  | succ m =>
    obtain ⟨hf, hv⟩ := saveCalls_version m (by push_cast at h; omega)
    have hmax : ((NewFileSystem.run (saveCalls m)).heap 0).Version = maxInt := by
      rw [hv, ← h]; push_cast; ring
    rw [saveCalls_succ, run_append]
    generalize NewFileSystem.run (saveCalls m) = fs at hf hmax
    simp only [FileSystem.run, FileSystem.apply]
    rw [SaveVersion_present _ _ _ _ _ hf]
    simp only [FileSystem.record, hf, Option.map_some', store_same]
    rw [hmax, wrapInt_maxInt]

/-- C14, as stated, fails: after `CreateFile("a.txt", "/d", "v1")` and
`2^63 - 1` calls of `SaveVersion("a.txt", "/d", "v2")` the version of
`/d/a.txt` is `-2^63`, which is below 1. -/
theorem version_below_one :
    ((NewFileSystem.run (saveCalls (2 ^ 63 - 1))).record (filepathJoin "/d" "a.txt")).map
        File.Version = some minInt ∧
    minInt < 1 :=
  ⟨saveCalls_wrap (2 ^ 63 - 1) (by unfold maxInt; norm_num), by decide⟩

/-- Where the record a key holds after a call comes from: it is new, at
version 1, or it carries the version of a record of the table before, or the
wrapped successor of that version. -/
theorem record_apply_origin (fs : FileSystem) (op : Op) (k : String) (r' : File)
    (h : fs.Owned) (hr' : (fs.apply op).fs.record k = some r') :
    r'.Version = 1 ∨
    ∃ k0 r, fs.record k0 = some r ∧
      (r'.Version = r.Version ∨ r'.Version = wrapInt (r.Version + 1)) := by
  obtain ⟨ha, he⟩ := h
  have same : fs.record k = some r' → r'.Version = 1 ∨
      ∃ k0 r, fs.record k0 = some r ∧
        (r'.Version = r.Version ∨ r'.Version = wrapInt (r.Version + 1)) :=
    fun hr => Or.inr ⟨k, r', hr, Or.inl rfl⟩
  cases op with
  | create name path contents =>
    simp only [FileSystem.apply] at hr'
    cases hs : fs.files (filepathJoin path name) with
    | none =>
      rw [CreateFile_absent _ _ _ _ hs, record_fresh _ _ _ ha] at hr'
      split at hr'
      · simp only [Option.some.injEq] at hr'
        exact Or.inl (by rw [← hr'])
      · exact same hr'
    | some p => rw [CreateFile_present _ _ _ _ _ hs] at hr'; exact same hr'
  | delete name path =>
    simp only [FileSystem.apply] at hr'
    cases hs : fs.files (filepathJoin path name) with
    | none => rw [DeleteFile_absent _ _ _ hs] at hr'; exact same hr'
    | some p =>
      rw [DeleteFile_present _ _ _ _ hs, record_delete] at hr'
      split at hr'
      · exact absurd hr' (by simp)
      · exact same hr'
  | copy name srcPath destPath =>
    simp only [FileSystem.apply] at hr'
    cases hs : fs.files (filepathJoin srcPath name) with
    | none => rw [Copy_absent _ _ _ _ hs] at hr'; exact same hr'
    | some p =>
      cases hd : fs.files (filepathJoin destPath name) with
      | some q => rw [Copy_occupied _ _ _ _ _ _ hs hd] at hr'; exact same hr'
      | none =>
        rw [Copy_free _ _ _ _ _ hs hd, record_fresh _ _ _ ha] at hr'
        split at hr'
        · simp only [Option.some.injEq] at hr'
          exact Or.inr ⟨filepathJoin srcPath name, fs.heap p,
            by simp [FileSystem.record, hs], Or.inl (by rw [← hr'])⟩
        · exact same hr'
  | move name srcPath destPath =>
    simp only [FileSystem.apply] at hr'
    cases hs : fs.files (filepathJoin srcPath name) with
    | none => rw [MoveFile_absent _ _ _ _ hs] at hr'; exact same hr'
    | some p =>
      cases hd : fs.files (filepathJoin destPath name) with
      | some q => rw [MoveFile_occupied _ _ _ _ _ _ hs hd] at hr'; exact same hr'
      | none =>
        rw [MoveFile_free _ _ _ _ _ hs hd, record_move _ _ _ _ _ he hs] at hr'
        split at hr'
        · simp only [Option.some.injEq] at hr'
          exact Or.inr ⟨filepathJoin srcPath name, fs.heap p,
            by simp [FileSystem.record, hs], Or.inl (by rw [← hr'])⟩
        · split at hr'
          · exact absurd hr' (by simp)
          · exact same hr'
  | save name path contents =>
    simp only [FileSystem.apply] at hr'
    cases hs : fs.files (filepathJoin path name) with
    | none => rw [SaveVersion_absent _ _ _ _ hs] at hr'; exact same hr'
    | some p =>
      rw [SaveVersion_present _ _ _ _ _ hs, record_save _ _ _ _ he hs] at hr'
      split at hr'
      · simp only [Option.some.injEq] at hr'
        exact Or.inr ⟨filepathJoin path name, fs.heap p,
          by simp [FileSystem.record, hs], Or.inr (by rw [← hr'])⟩
      · exact same hr'
  | switch name path version =>
    simp only [FileSystem.apply] at hr'
    rw [SwitchVersion_fs] at hr'
    exact same hr'

theorem VersionsWithin_apply (fs : FileSystem) (op : Op) (n : Int) (h : fs.Owned)
    (hv : fs.VersionsWithin n) (h0 : 0 ≤ n) (h1 : n < maxInt) :
    (fs.apply op).fs.VersionsWithin (n + 1) := by
  intro k r' hr'
  rcases record_apply_origin fs op k r' h hr' with h1' | ⟨k0, r, hr, hcase⟩
  · rw [h1']; omega
  · obtain ⟨hlo, hhi⟩ := hv k0 r hr
    rcases hcase with e | e
    · rw [e]; omega
    · rw [e, wrapInt_of_lt _ (by unfold minInt; omega) (by omega)]; omega

theorem VersionsWithin_run (ops : List Op) (fs : FileSystem) (n : Int) (h : fs.Owned)
    (hv : fs.VersionsWithin n) (h0 : 0 ≤ n) (h1 : n + (ops.length : Int) ≤ maxInt) :
    (fs.run ops).VersionsWithin (n + (ops.length : Int)) := by
  induction ops generalizing fs n with
  | nil => simpa using hv
  | cons op ops ih =>
    simp only [List.length_cons, Nat.cast_add, Nat.cast_one] at h1 ⊢
    have := ih (fs.apply op).fs (n + 1) (Owned_apply fs op h)
      (VersionsWithin_apply fs op n h hv h0 (by omega)) (by omega) (by omega)
    have e : n + ((ops.length : Int) + 1) = n + 1 + (ops.length : Int) := by ring
    rw [e]
    exact this

/-- C14, amended. Version positivity: in every table reached from the empty
table by a sequence of at most `2^63 - 1` calls, every record has version at
least 1, so `SwitchVersion(name, path, 1)` succeeds on every existing file. -/
theorem version_positive (ops : List Op) (hlen : (ops.length : Int) ≤ maxInt) :
    (∀ k r, (NewFileSystem.run ops).record k = some r → 1 ≤ r.Version) ∧
    (∀ name path, (NewFileSystem.run ops).present (filepathJoin path name) →
      ((NewFileSystem.run ops).SwitchVersion name path 1).succeeds) := by
  have hv : (NewFileSystem.run ops).VersionsWithin (0 + (ops.length : Int)) := by
    apply VersionsWithin_run ops NewFileSystem 0 Owned_New _ (le_refl 0) (by omega)
    intro k r hr
    simp [FileSystem.record, NewFileSystem] at hr
  have hpos : ∀ k r, (NewFileSystem.run ops).record k = some r → 1 ≤ r.Version :=
    fun k r hr => (hv k r hr).1
  refine ⟨hpos, ?_⟩
  intro name path hp
  unfold FileSystem.present at hp
  cases hs : (NewFileSystem.run ops).files (filepathJoin path name) with
  | none => exact absurd hs hp
  | some p =>
    have h1 := hpos (filepathJoin path name) ((NewFileSystem.run ops).heap p)
      (by simp [FileSystem.record, hs])
    have hvalid : ¬ ((1 : Int) ≤ 0 ∨ 1 > ((NewFileSystem.run ops).heap p).Version) := by omega
    rw [SwitchVersion_valid _ _ _ _ _ hs hvalid]
    rfl

/-- C14 amended, on an instance: after a create, a copy and a move, `/e/a.txt`
is at version 1 and `SwitchVersion("a.txt", "/e", 1)` succeeds. -/
theorem version_positive_witness :
    ((plainCalls.length : Nat) : Int) ≤ maxInt ∧
    (NewFileSystem.run plainCalls).present (filepathJoin "/e" "a.txt") ∧
    ((NewFileSystem.run plainCalls).SwitchVersion "a.txt" "/e" 1).succeeds :=
  ⟨by decide, by decide,
   (version_positive plainCalls (by decide)).2 "a.txt" "/e" (by decide)⟩

/-! ### The example scenario -/

/-- The map at the end of the example scenario holds the key `/b/a.txt` only. -/
theorem afterDelete_files (k : String) :
    afterDelete.fs.files k = if k = "/b/a.txt" then some 1 else none := by
  have h : afterDelete.fs.files =
      mapDelete (mapSet (mapDelete (mapSet (mapSet (fun _ => none) "/d/a.txt" 0) "/b/a.txt" 1)
        "/d/a.txt") "/e/a.txt" 0) "/e/a.txt" := by
    rfl
  rw [h]
  unfold mapDelete mapSet
  by_cases h1 : k = "/e/a.txt"
  · subst h1; decide
  · by_cases h2 : k = "/d/a.txt"
    · subst h2; decide
    · simp [h1, h2]

/-- C17. The example scenario: from the empty table, Create, SaveVersion,
SwitchVersion, Copy, Move and Delete all succeed; after the save the record has
version 2 and contents `v2`; the switch reports contents `v2`; after the copy
`/b/a.txt` holds version 2; after the move `/d/a.txt` is absent and `/e/a.txt`
holds version 2; after the delete `/e/a.txt` is absent, a repeated delete fails
with NotFound, and the only remaining entry is `/b/a.txt`, with contents `v2`
and version 2. -/
theorem example_scenario :
    afterCreate.succeeds ∧ afterSave.succeeds ∧ afterSwitch.succeeds ∧ afterCopy.succeeds ∧
    afterMove.succeeds ∧ afterDelete.succeeds ∧
    afterCreate.fs.record "/d/a.txt" =
      some { Name := "a.txt", Path := "/d", Contents := "v1", Version := 1 } ∧
    afterSave.fs.record "/d/a.txt" =
      some { Name := "a.txt", Path := "/d", Contents := "v2", Version := 2 } ∧
    afterSwitch.out = "Old version of a.txt (Version 1):\nv2\n" ∧
    afterCopy.fs.record "/b/a.txt" =
      some { Name := "a.txt", Path := "/b", Contents := "v2", Version := 2 } ∧
    ¬ afterMove.fs.present "/d/a.txt" ∧
    afterMove.fs.record "/e/a.txt" =
      some { Name := "a.txt", Path := "/e", Contents := "v2", Version := 2 } ∧
    ¬ afterDelete.fs.present "/e/a.txt" ∧
    afterDeleteAgain.failsWith .NotFound ∧
    (∀ k, afterDelete.fs.present k ↔ k = "/b/a.txt") ∧
    afterDelete.fs.record "/b/a.txt" =
      some { Name := "a.txt", Path := "/b", Contents := "v2", Version := 2 } := by
  refine ⟨by decide, by decide, by decide, by decide, by decide, by decide, by decide,
    by decide, by decide, by decide, by decide, by decide, by decide, by decide, ?_, by decide⟩
  intro k
  unfold FileSystem.present
  rw [afterDelete_files]
  by_cases hk : k = "/b/a.txt" <;> simp [hk]

end GoFileSystem
